import Mathlib

/-!
Shallow embedding of the pymongoext library (src/pymongoext) for verifying the
natural-language specification against the code.

The embedding models:
  * `fields.py`  — the `Field` class hierarchy, `Field.parse`, `DictField.parse`
                   and `Field.schema` (schema compilation);
  * `manipulators.py` — the manipulator pipeline (`Manipulator`,
                   `ParseInputsManipulator.transform_incoming`);
  * `model.py`   — `Model.manipulators`, `Model.apply_incoming_manipulators`,
                   `Model.apply_outgoing_manipulators`, `Model.get`,
                   `Model.parse` and the index-sync phase of `Model._update`;
  * `cursor.py`  — `WrappedCursor.next`;
  * `binder.py`  — `_wrap_outgoing` (the `find_one` read path).

Python values that can appear in documents are modelled by `MValue`
(`MValue.null` is Python `None`); Python exceptions (`ValueError` from coercion,
`AttributeError`/`TypeError` from iterating a non-dict) are modelled by `Option`
results (`none` = the call raises); deep copies are the identity under value
semantics.  Recursion through the field tree is driven by an explicit `fuel`
parameter (every theorem quantifies over or supplies sufficient fuel, and
`parseF fuel = none` only when the fuel is exhausted before the recursion
bottoms out).  Everything lives in the `Pymongoext` namespace to keep the
source's class names (`Field` would otherwise collide with Mathlib).
-/

namespace Pymongoext

/-- A Python value as stored in a pymongo document: `null` is Python `None`,
`int`/`float` are Python `int`/`float` (floats modelled as rationals),
`date` is a `datetime.datetime` (abstracted to its textual content),
`oid` is a `bson.ObjectId` (abstracted to its 24-hex-char string),
`doc` is a `dict` as an insertion-ordered association list. -/
inductive MValue where
  | null
  | str (s : String)
  | int (n : Int)
  | float (q : Rat)
  | bool (b : Bool)
  | date (s : String)
  | oid (s : String)
  | arr (xs : List MValue)
  | doc (kvs : List (String × MValue))

mutual

def MValue.beq : MValue → MValue → Bool
  | .null, .null => true
  | .str a, .str b => a == b
  | .int a, .int b => a == b
  | .float a, .float b => a == b
  | .bool a, .bool b => a == b
  | .date a, .date b => a == b
  | .oid a, .oid b => a == b
  | .arr a, .arr b => MValue.beqList a b
  | .doc a, .doc b => MValue.beqKvs a b
  | _, _ => false

def MValue.beqList : List MValue → List MValue → Bool
  | [], [] => true
  | x :: xs, y :: ys => MValue.beq x y && MValue.beqList xs ys
  | _, _ => false

def MValue.beqKvs : List (String × MValue) → List (String × MValue) → Bool
  | [], [] => true
  | (k, v) :: xs, (k', v') :: ys => k == k' && MValue.beq v v' && MValue.beqKvs xs ys
  | _, _ => false

end

namespace MValue

/-- Whether the value is Python `None` (`value is None`). -/
def isNull : MValue → Bool
  | .null => true
  | _ => false

/-- Python set-membership under `==` (value equality). -/
def memB (x : MValue) : List MValue → Bool
  | [] => false
  | y :: t => MValue.beq x y || memB x t

/-- `list(set(l))` for a list of values: value-equal duplicates removed
(first occurrences kept; the Python set's iteration order is unspecified). -/
def dedupB : List MValue → List MValue
  | [] => []
  | x :: t => x :: (dedupB t).filter (fun y => !(MValue.beq x y))


/-- The underlying association list of a `doc`, if the value is a dict.
Used to model Python code that iterates `value.items()` (raising otherwise). -/
def asDoc? : MValue → Option (List (String × MValue))
  | .doc kvs => some kvs
  | _ => none

/-- Whether a dict value has the given key (`key in doc` in Python). -/
def hasKey (v : MValue) (k : String) : Bool :=
  match v with
  | .doc kvs => (kvs.map Prod.fst).contains k
  | _ => false

end MValue

/-- First-match association-list lookup (Python `dict[key]` / `key in dict`). -/
def lookupF {α : Type} (k : String) : List (String × α) → Option α
  | [] => none
  | (k', v) :: rest => if k' = k then some v else lookupF k rest

/-- The keys of an association list, in order (Python `dict.keys()`). -/
def keysOf {α : Type} (l : List (String × α)) : List String :=
  l.map Prod.fst

/-- Python `d[k] = v` on a dict: replaces the value in place if the key is
present (keeping its position), otherwise appends the new pair at the end. -/
def dictInsert {α : Type} (l : List (String × α)) (k : String) (v : α) :
    List (String × α) :=
  if (keysOf l).contains k then
    l.map (fun p => if p.1 = k then (k, v) else p)
  else
    l ++ [(k, v)]

/-- Build a Python dict from a sequence of key/value assignments
(`dict(**a, **b, ...)` up to duplicate-keyword errors, which callers exclude). -/
def buildDict {α : Type} (l : List (String × α)) : List (String × α) :=
  l.foldl (fun acc p => dictInsert acc p.1 p.2) []

/-- Python `str()` of a document value (the exact rendering only matters for
string/int/bool inputs, which is all the repository's tests exercise; the other
branches are best-effort renderings of CPython's `str`). -/
def pystr : MValue → String
  | .null => "None"
  | .str s => s
  | .int n => toString n
  | .float q => toString q
  | .bool b => if b then "True" else "False"
  | .date s => s
  | .oid s => s
  | .arr _ => "[...]"
  | .doc _ => "{...}"

/-- Best-effort model of `fastnumbers.fast_float` on a string: an optional
sign followed by digits with an optional fractional part parses to a rational,
anything else is invalid (`none`).  (The library also accepts exponents and
special floats; none of the verified claims depend on those inputs.) -/
def parseFloatStr (s : String) : Option Rat :=
  let core (t : List Char) : Option Rat :=
    match t.span Char.isDigit with
    | (intPart, rest) =>
      if intPart.isEmpty then none
      else
        let ip : Int := intPart.foldl (fun a c => a * 10 + (c.toNat - 48)) 0
        match rest with
        | [] => some (ip : Rat)
        | '.' :: fracPart =>
          if fracPart.isEmpty ∨ ¬ fracPart.all Char.isDigit then none
          else
            let fp : Int := fracPart.foldl (fun a c => a * 10 + (c.toNat - 48)) 0
            some ((ip : Rat) + (fp : Rat) / ((10 : Rat) ^ fracPart.length))
        | _ => none
  match s.data with
  | '-' :: t => (core t).map (fun q => -q)
  | '+' :: t => core t
  | t => core t

/-- `fields._float`: `""` and `None` map to `None`; numeric values coerce to
float; invalid values raise (`none`).  `some .null` is a returned Python
`None`, the outer `none` is a raised `ValueError`. -/
def pyFloat : MValue → Option MValue
  | .null => some .null
  | .str s =>
    if s = "" then some .null
    else (parseFloatStr s).map (fun q => MValue.float q)
  | .int n => some (.float (n : Rat))
  | .float q => some (.float q)
  | .bool b => some (.float (if b then 1 else 0))
  | _ => none

/-- Python `int()` on a float: truncation toward zero. -/
def ratTrunc (q : Rat) : Int :=
  if 0 ≤ q then q.floor else q.ceil

/-- Whether a string is a valid 24-character hex ObjectId literal. -/
def isHex24 (s : String) : Bool :=
  s.length = 24 && s.data.all (fun c => c.isDigit || ('a' ≤ c && c ≤ 'f') || ('A' ≤ c && c ≤ 'F'))

/-- Modelled from the spec: stand-in for the external `dateutil.parser.parse`
(the repository only declares the dependency).  It accepts strings made of
digits, `-`, `:`, `T` and spaces and raises (`none`) otherwise; the claims
quantify only over its success/failure, never its exact output. -/
def dateutilParse (s : String) : Option String :=
  if s ≠ "" && s.data.all (fun c => c.isDigit || c = '-' || c = ':' || c = 'T' || c = ' ') then
    some s
  else none

/-- Which `_parse_non_null_value` implementation a non-composite field uses:
`base` is the pass-through of `Field` (also `BooleanField`, `TimeStampField`,
`NullField`), the rest correspond to `StringField`, `NumberField`/`FloatField`,
`IntField`, `DateTimeField`, `ObjectIDField`. -/
inductive CoerceKind where
  | base
  | string
  | number
  | int
  | date
  | oid
deriving DecidableEq, Repr

/-- A field's declared default: a static value (deep-copied per resolution,
which is the identity under value semantics) or a zero-argument factory.
A factory is modelled as a function of a fresh-call counter so that
"invoked fresh on each call" is observable: the n-th invocation anywhere in a
parse receives call index n. -/
inductive FieldDefault where
  | value (v : MValue)
  | factory (g : Nat → MValue)

mutual

/-- A node of the declared field tree (`fields.Field` and its subclasses):
`type?` is `__type__`, `default`/`required` the constructor arguments, and
`attributes` the `self.attributes` dict (entries with `none` values are the
Python `None`s that `schema()` later filters out). -/
inductive Field where
  | mk (type? : Option String) (default : Option FieldDefault) (required : Bool)
       (attributes : List (String × Option MValue)) (shape : FieldShape)

/-- The per-class data and behaviour of a field beyond the base class. -/
inductive FieldShape where
  | plain (kind : CoerceKind)
  | listF (field : Option Field)
  | dictF (props : Option (List (String × Field))) (ap : APolicy)
          (requiredProps : Option (List String))
  | withFields (className : String) (addNull : Bool) (fields : List Field)
  | notF (field : Field)

/-- `DictField.additional_props`: `True`, `False`, or a validating field. -/
inductive APolicy where
  | boolP (b : Bool)
  | fieldP (f : Field)

end

namespace Field

def type? : Field → Option String
  | .mk t _ _ _ _ => t

def default : Field → Option FieldDefault
  | .mk _ d _ _ _ => d

def required : Field → Bool
  | .mk _ _ r _ _ => r

def attributes : Field → List (String × Option MValue)
  | .mk _ _ _ a _ => a

def shape : Field → FieldShape
  | .mk _ _ _ _ s => s

/-- `isinstance(f, DictField)` (`MapField` is a subclass). -/
def isDictShape : Field → Bool
  | .mk _ _ _ _ (.dictF _ _ _) => true
  | _ => false

/-- The declared property keys of a dict field (empty for other shapes). -/
def propsKeys : Field → List String
  | .mk _ _ _ _ (.dictF (some ps) _ _) => keysOf ps
  | _ => []

end Field

/-- The `_parse_non_null_value` coercion of a non-dict field kind.
`none` models a raised exception. -/
def coerceKind : CoerceKind → MValue → Option MValue
  | .base, v => some v
  | .string, v => some (.str (pystr v))
  | .number, v => pyFloat v
  | .int, v =>
    match pyFloat v with
    | some (.float q) => some (.int (ratTrunc q))
    | some .null => some .null
    | _ => none
  | .date, v =>
    match v with
    | .date s => some (.date s)
    | .str s => (dateutilParse s).map (fun t => MValue.date t)
    | _ => none
  | .oid, v =>
    match v with
    | .oid s => some (.oid s)
    | .str s => if isHex24 s then some (.oid s) else none
    | _ => none

/-- Python `list(value)` in `ListField._parse_non_null_value`: copies a list,
explodes a string into characters, lists a dict's keys, raises otherwise. -/
def listCoerce : MValue → Option MValue
  | .arr xs => some (.arr xs)
  | .str s => some (.arr (s.data.map (fun c => MValue.str (String.mk [c]))))
  | .doc kvs => some (.arr ((keysOf kvs).map (fun k => MValue.str k)))
  | _ => none

/-- `_parse_non_null_value` dispatched on the field's class.  Union (`OneOf`,
`AnyOf`, `AllOf`), negation (`Not`) and dict fields inherit the base
pass-through (dict fields never reach it: `DictField.parse` is overridden). -/
def parseNonNull (f : Field) (v : MValue) : Option MValue :=
  match f.shape with
  | .plain k => coerceKind k v
  | .listF _ => listCoerce v
  | _ => some v

/-- `ObjectIDField()` as injected by `DictField.parse` for a missing `_id`. -/
def objectIDFieldDefault : Field :=
  .mk (some "objectId") none false
    [("enum", none), ("title", none), ("description", none)] (.plain .oid)

/-- The loop `for key, value in data.items(): if key in props: data[key] =
props[key].parse(value, with_defaults)` of `DictField.parse`: declared keys are
parsed in place (threading the fresh-call counter), other entries are kept.
`pf` is the recursive parse at one less fuel with `with_defaults` baked in. -/
def parseEntries (pf : Field → MValue → Nat → Option (MValue × Nat))
    (props : List (String × Field)) :
    List (String × MValue) → Nat → Option (List (String × MValue) × Nat)
  | [], σ => some ([], σ)
  | (k, v) :: rest, σ =>
    match lookupF k props with
    | some g =>
      match pf g v σ with
      | some (w, σ') =>
        (parseEntries pf props rest σ').map (fun p => ((k, w) :: p.1, p.2))
      | none => none
    | none =>
      (parseEntries pf props rest σ).map (fun p => ((k, v) :: p.1, p.2))

/-- The fill-in-missing-keys loop of `DictField.parse`: for every declared
property whose key is absent from the data, resolve `parse(None, True)` and
append the key only when the resolved default is not `None`.  (Python iterates
the set `props.keys() - data.keys()`; the embedding fixes declaration order.) -/
def fillMissing (pf : Field → MValue → Nat → Option (MValue × Nat))
    (dataKeys : List String) :
    List (String × Field) → Nat → Option (List (String × MValue) × Nat)
  | [], σ => some ([], σ)
  | (k, g) :: rest, σ =>
    if dataKeys.contains k then fillMissing pf dataKeys rest σ
    else
      match pf g .null σ with
      | some (w, σ') =>
        if w.isNull then fillMissing pf dataKeys rest σ'
        else (fillMissing pf dataKeys rest σ').map (fun p => ((k, w) :: p.1, p.2))
      | none => none

/-- The additional-properties loop of `DictField.parse` when
`additional_props` is a field: every entry whose key is not declared is parsed
against that field; declared entries are kept. -/
def parseAdditional (pa : MValue → Nat → Option (MValue × Nat))
    (propKeys : List String) :
    List (String × MValue) → Nat → Option (List (String × MValue) × Nat)
  | [], σ => some ([], σ)
  | (k, v) :: rest, σ =>
    if propKeys.contains k then
      (parseAdditional pa propKeys rest σ).map (fun p => ((k, v) :: p.1, p.2))
    else
      match pa v σ with
      | some (w, σ') =>
        (parseAdditional pa propKeys rest σ').map (fun p => ((k, w) :: p.1, p.2))
      | none => none

/-- The effective property table of `DictField.parse`: the declared `props`
(`{}` when `None`), with an `ObjectIDField` appended under `_id` when parsing
at the document root (`is_schema`) and no `_id` property is declared. -/
def effectiveProps (props : Option (List (String × Field))) (isSchema : Bool) :
    List (String × Field) :=
  let props0 := props.getD []
  if isSchema && !(keysOf props0).contains "_id" then
    props0 ++ [("_id", objectIDFieldDefault)]
  else props0

/-- `Field.parse(value, with_defaults)` / `DictField.parse(value, with_defaults,
is_schema)`, by fuel-bounded recursion over the field tree.

Base fields (`fields.py` lines 104-117): a non-`None` value is coerced by
`_parse_non_null_value`; `None` resolves to itself unless `with_defaults` and a
default is declared, in which case a factory default is invoked fresh
(consuming one fresh-call index) and a static default is deep-copied (value
identity).

Dict fields (`fields.py` lines 316-352): `None` without `with_defaults`
returns `None`; otherwise the data is the (deep-copied) input dict (`{}` for
`None`; a non-dict input raises at `data.items()`); declared keys are parsed
in place, missing declared keys are filled from non-`None` resolved defaults,
and additional keys are dropped, kept, or parsed per `additional_props`.
The result is the parsed value together with the advanced fresh-call counter;
the in-place `props['_id']` injection performed by the source is modelled
separately by `updatedField`. -/
def parseF : Nat → Field → MValue → Bool → Bool → Nat → Option (MValue × Nat)
  | 0, _, _, _, _, _ => none
  | fuel + 1, f, value, withDefaults, isSchema, σ =>
    match f.shape with
    | .dictF props ap _ =>
      if value.isNull && !withDefaults then some (.null, σ)
      else
        match (if value.isNull then some [] else value.asDoc?) with
        | none => none
        | some data =>
          let props1 := effectiveProps props isSchema
          let pf := fun g v σ' => parseF fuel g v withDefaults false σ'
          match parseEntries pf props1 data σ with
          | none => none
          | some (data1, σ1) =>
            match
              (if withDefaults then fillMissing pf (keysOf data1) props1 σ1
               else some ([], σ1)) with
            | none => none
            | some (fills, σ2) =>
              let data2 := data1 ++ fills
              match ap with
              | .boolP false =>
                some (.doc (data2.filter (fun p => (keysOf props1).contains p.1)), σ2)
              | .boolP true => some (.doc data2, σ2)
              | .fieldP g =>
                match parseAdditional (fun v σ' => parseF fuel g v withDefaults false σ')
                    (keysOf props1) data2 σ2 with
                | none => none
                | some (data3, σ3) => some (.doc data3, σ3)
    | _ =>
      if !value.isNull then (parseNonNull f value).map (fun w => (w, σ))
      else if !withDefaults then some (value, σ)
      else
        match f.default with
        | none => some (value, σ)
        | some (.factory g) => some (g σ, σ + 1)
        | some (.value v) => some (v, σ)

/-- Whether a call `f.parse(value, with_defaults, is_schema)` performs the
in-place `props['_id'] = ObjectIDField()` write on the *shared* declared
`props` dict (`fields.py` lines 322-326).  The write happens whenever the
early `None`-without-defaults return is not taken, the call is at the root
(`is_schema`), the field declares a props dict (when `self.props is None` the
injection only touches a local `{}`), and no `_id` property is declared —
even if the call later raises on a non-dict value. -/
def mutatesProps (f : Field) (value : MValue) (withDefaults isSchema : Bool) : Bool :=
  match f.shape with
  | .dictF (some ps) _ _ =>
    isSchema && !(value.isNull && !withDefaults) && !(keysOf ps).contains "_id"
  | _ => false

/-- The state of the declared field after a `parse` call: identical to the
declared field except that the shared `props` dict has gained the injected
`_id` field when `mutatesProps` holds. -/
def updatedField (f : Field) (value : MValue) (withDefaults isSchema : Bool) : Field :=
  if mutatesProps f value withDefaults isSchema then
    match f with
    | .mk t d r a (.dictF (some ps) ap rp) =>
      .mk t d r a (.dictF (some (ps ++ [("_id", objectIDFieldDefault)])) ap rp)
    | f' => f'
  else f

/-- `Model.parse(data, with_defaults)` (`model.py` lines 260-295): parses via
the declared schema with `is_schema=True` when the schema is a `DictField`
(`MapField` included), and returns the data unchanged otherwise. -/
def modelParse (schema? : Option Field) (data : MValue) (withDefaults : Bool)
    (fuel σ : Nat) : Option (MValue × Nat) :=
  match schema? with
  | some f => if f.isDictShape then parseF fuel f data withDefaults true σ
              else some (data, σ)
  | none => some (data, σ)

/-! ### Field constructors (the Python classes of `fields.py`)

Named arguments of the Python constructors become positional arguments here
(`Option` for those defaulting to `None`).  The `_v` bound checks of the
source raise `ValueError` at construction time for negative/fractional
bounds; the embedding's constructors are only ever applied to valid bounds. -/

/-- The common `self.attributes` assembly of `Field.__init__`:
`dict(enum=enum if enum is None else list(set(enum)), title=..., description=...,
**kwargs)`.  `MValue.dedupB` stands in for `list(set(...))` (the set's iteration
order is unspecified in Python). -/
def baseAttrs (enum : Option (List MValue)) (title description : Option String)
    (extra : List (String × Option MValue)) : List (String × Option MValue) :=
  [("enum", enum.map (fun l => MValue.arr (MValue.dedupB l))),
   ("title", title.map MValue.str),
   ("description", description.map MValue.str)] ++ extra

/-- `Field(default, required, enum, title, description, **kwargs)` — the base
class itself (named `mkField`: `Field` is the type). -/
def mkField (default : Option FieldDefault) (required : Bool)
    (enum : Option (List MValue)) (title description : Option String)
    (extra : List (String × Option MValue)) : Field :=
  .mk none default required (baseAttrs enum title description extra) (.plain .base)

/-- `NullField()` — takes no arguments and calls `super().__init__()`. -/
def NullField : Field :=
  .mk (some "null") none false (baseAttrs none none none []) (.plain .base)

/-- `StringField(max_length, min_length, pattern, **kwargs)`. -/
def StringField (maxLength minLength : Option Nat) (pattern : Option String)
    (default : Option FieldDefault) (required : Bool)
    (enum : Option (List MValue)) (title description : Option String) : Field :=
  .mk (some "string") default required
    (baseAttrs enum title description
      [("max_length", maxLength.map (fun n => MValue.int n)),
       ("min_length", minLength.map (fun n => MValue.int n)),
       ("pattern", pattern.map MValue.str)])
    (.plain .string)

/-- The `limits` assembly of `NumberField.__init__`: an exclusive bound
replaces the inclusive one and sets the corresponding exclusivity flag. -/
def numberLimits (maximum minimum exclusiveMaximum exclusiveMinimum :
    Option MValue) : List (String × Option MValue) :=
  let l0 : List (String × Option MValue) := [("maximum", maximum), ("minimum", minimum)]
  let l1 := if exclusiveMaximum.isSome then
      dictInsert l0 "maximum" exclusiveMaximum ++ [("exclusive_maximum", some (.bool true))]
    else l0
  if exclusiveMinimum.isSome then
    dictInsert l1 "minimum" exclusiveMinimum ++ [("exclusive_minimum", some (.bool true))]
  else l1

/-- `NumberField(maximum, minimum, exclusive_maximum, exclusive_minimum,
multiple_of, **kwargs)`. -/
def NumberField (maximum minimum exclusiveMaximum exclusiveMinimum multipleOf :
    Option MValue) (default : Option FieldDefault) (required : Bool)
    (enum : Option (List MValue)) (title description : Option String) : Field :=
  .mk (some "number") default required
    (baseAttrs enum title description
      (numberLimits maximum minimum exclusiveMaximum exclusiveMinimum ++
        [("multiple_of", multipleOf)]))
    (.plain .number)

/-- `IntField` — `NumberField` with `__type__ = 'int'` and truncating parse. -/
def IntField (maximum minimum exclusiveMaximum exclusiveMinimum multipleOf :
    Option MValue) (default : Option FieldDefault) (required : Bool)
    (enum : Option (List MValue)) (title description : Option String) : Field :=
  .mk (some "int") default required
    (baseAttrs enum title description
      (numberLimits maximum minimum exclusiveMaximum exclusiveMinimum ++
        [("multiple_of", multipleOf)]))
    (.plain .int)

/-- `FloatField` — `NumberField` with `__type__ = 'long'`. -/
def FloatField (maximum minimum exclusiveMaximum exclusiveMinimum multipleOf :
    Option MValue) (default : Option FieldDefault) (required : Bool)
    (enum : Option (List MValue)) (title description : Option String) : Field :=
  .mk (some "long") default required
    (baseAttrs enum title description
      (numberLimits maximum minimum exclusiveMaximum exclusiveMinimum ++
        [("multiple_of", multipleOf)]))
    (.plain .number)

/-- `BooleanField(**kwargs)`. -/
def BooleanField (default : Option FieldDefault) (required : Bool)
    (enum : Option (List MValue)) (title description : Option String) : Field :=
  .mk (some "bool") default required (baseAttrs enum title description [])
    (.plain .base)

/-- `ListField(field, max_items, min_items, unique_items, **kwargs)`. -/
def ListField (field : Option Field) (maxItems minItems : Option Nat)
    (uniqueItems : Option Bool) (default : Option FieldDefault) (required : Bool)
    (enum : Option (List MValue)) (title description : Option String) : Field :=
  .mk (some "array") default required
    (baseAttrs enum title description
      [("max_items", maxItems.map (fun n => MValue.int n)),
       ("min_items", minItems.map (fun n => MValue.int n)),
       ("unique_items", uniqueItems.map MValue.bool)])
    (.listF field)

/-- `DictField(props, max_props, min_props, additional_props, required_props,
**kwargs)`. -/
def DictField (props : Option (List (String × Field)))
    (maxProps minProps : Option Nat) (additionalProps : APolicy)
    (requiredProps : Option (List String)) (default : Option FieldDefault)
    (required : Bool) (enum : Option (List MValue))
    (title description : Option String) : Field :=
  .mk (some "object") default required
    (baseAttrs enum title description
      [("max_properties", maxProps.map (fun n => MValue.int n)),
       ("min_properties", minProps.map (fun n => MValue.int n))])
    (.dictF props additionalProps requiredProps)

/-- `MapField(field, **kwargs)` — a `DictField` whose `additional_props` is the
given field. -/
def MapField (field : Field) (maxProps minProps : Option Nat)
    (requiredProps : Option (List String)) (default : Option FieldDefault)
    (required : Bool) (enum : Option (List MValue))
    (title description : Option String) : Field :=
  DictField none maxProps minProps (.fieldP field) requiredProps default
    required enum title description

/-- `OneOf(*fields, **kwargs)` (construction raises when `fields` is empty;
the embedding is only applied to non-empty lists). -/
def OneOf (fields : List Field) (default : Option FieldDefault) (required : Bool)
    (enum : Option (List MValue)) (title description : Option String) : Field :=
  .mk none default required (baseAttrs enum title description [])
    (.withFields "OneOf" true fields)

/-- `AnyOf(*fields, **kwargs)`. -/
def AnyOf (fields : List Field) (default : Option FieldDefault) (required : Bool)
    (enum : Option (List MValue)) (title description : Option String) : Field :=
  .mk none default required (baseAttrs enum title description [])
    (.withFields "AnyOf" true fields)

/-- `AllOf(*fields, **kwargs)` — `__add_null__ = False`. -/
def AllOf (fields : List Field) (default : Option FieldDefault) (required : Bool)
    (enum : Option (List MValue)) (title description : Option String) : Field :=
  .mk none default required (baseAttrs enum title description [])
    (.withFields "AllOf" false fields)

/-- `Not(field, **kwargs)` (named `NotField`: `Not` is Lean's negation). -/
def NotField (field : Field) (default : Option FieldDefault) (required : Bool)
    (enum : Option (List MValue)) (title description : Option String) : Field :=
  .mk none default required (baseAttrs enum title description []) (.notF field)

/-- `DateTimeField(**kwargs)`. -/
def DateTimeField (default : Option FieldDefault) (required : Bool)
    (enum : Option (List MValue)) (title description : Option String) : Field :=
  .mk (some "date") default required (baseAttrs enum title description [])
    (.plain .date)

/-- `TimeStampField(**kwargs)`. -/
def TimeStampField (default : Option FieldDefault) (required : Bool)
    (enum : Option (List MValue)) (title description : Option String) : Field :=
  .mk (some "timestamp") default required (baseAttrs enum title description [])
    (.plain .base)

/-- `ObjectIDField(**kwargs)`. -/
def ObjectIDField (default : Option FieldDefault) (required : Bool)
    (enum : Option (List MValue)) (title description : Option String) : Field :=
  .mk (some "objectId") default required (baseAttrs enum title description [])
    (.plain .oid)

/-! ### Schema compilation (`Field.schema` and `_deferred_attributes`) -/

/-- `Field._bson_type`: the bare type tag when the tag is absent, `'null'`, or
the field is required; otherwise the two-element union `[type, "null"]`. -/
def bsonTypeOpt (f : Field) : Option MValue :=
  match f.type? with
  | none => none
  | some t =>
    if t = "null" || f.required then some (.str t)
    else some (.arr [.str t, .str "null"])

/-- Split a character list on a separator character (the pieces, in order,
without the separator; an empty input yields one empty piece, like Python's
`"".split("_")`). -/
def splitOnChar (sep : Char) : List Char → List (List Char)
  | [] => [[]]
  | c :: rest =>
    let r := splitOnChar sep rest
    if c = sep then [] :: r
    else
      match r with
      | h :: t => (c :: h) :: t
      | [] => [[c]]

/-- Capitalize the first character of a character list. -/
def capitalizeChars : List Char → List Char
  | [] => []
  | c :: t => c.toUpper :: t

/-- `inflection.camelize(s, uppercase_first_letter=False)` restricted to the
snake_case attribute keys the library uses: capitalize every `_`-separated
part after the first and drop the underscores. -/
def camelize (s : String) : String :=
  match splitOnChar '_' s.data with
  | [] => s
  | h :: t => String.mk (h ++ (t.map capitalizeChars).flatten)

/-- `inflection.underscore` restricted to the CamelCase class names the
library feeds it (`OneOf` → `one_of`): an underscore is inserted between a
lower-case letter or digit and an upper-case letter, and everything is
lower-cased. -/
def underscoreStr (s : String) : String :=
  let step := fun (acc : List Char) (c : Char) =>
    if c.isUpper then
      match acc.getLast? with
      | some p => if p.isLower || p.isDigit then acc ++ ['_', c.toLower] else acc ++ [c.toLower]
      | none => acc ++ [c.toLower]
    else acc ++ [c]
  String.mk (s.data.foldl step [])

/-- `f.withRequired r`: the deep-copied clone with its `required` flag set,
as produced inside `_WithListFieldsInput._deferred_attributes` and
`Not._deferred_attributes`. -/
def Field.withRequired (f : Field) (r : Bool) : Field :=
  match f with
  | .mk t d _ a s => .mk t d r a s

/-- The `required` name set computed by `DictField._deferred_attributes`:
explicit `required_props` plus every prop whose field is required,
deduplicated (`list(set(...))`; the set's order is unspecified in Python,
the embedding keeps first occurrences). -/
def requiredNames (requiredProps : Option (List String))
    (props : Option (List (String × Field))) : List String :=
  let base := requiredProps.getD []
  let fromChildren :=
    (props.getD []).filterMap (fun p => if p.2.required then some p.1 else none)
  (base ++ fromChildren).dedup

/-- `_deferred_attributes` of the composite field classes (`[]` for the base
class and every leaf).  `rec` compiles a child schema (the recursion at one
less fuel). -/
def deferredAttributes (rec : Field → List (String × MValue)) (f : Field) :
    List (String × Option MValue) :=
  match f.shape with
  | .plain _ => []
  | .listF g? =>
    [("items", g?.map (fun g => MValue.doc (rec g)))]
  | .dictF props ap rp =>
    let req := requiredNames rp props
    [("properties", props.map (fun ps =>
        MValue.doc (ps.map (fun p => (p.1, MValue.doc (rec p.2)))))),
     ("additional_properties", match ap with
        | .boolP b => some (.bool b)
        | .fieldP g => some (.doc (rec g))),
     ("required", if req.length > 0 then some (.arr (req.map MValue.str)) else none)]
  | .withFields cname addNull fields =>
    let fields1 := fields.map (fun g => g.withRequired true)
    let fields2 := if addNull && !f.required then fields1 ++ [NullField] else fields1
    [(underscoreStr cname, some (.arr (fields2.map (fun g => MValue.doc (rec g)))))]
  | .notF g =>
    [("not", some (.doc (rec (g.withRequired (!f.required)))))]

/-- The body of `Field.schema()` given the computed deferred attributes:
assemble `dict(**self.attributes, **self._deferred_attributes(),
bson_type=self._bson_type())`, then camelize every key and drop entries whose
value is `None`.  (Python raises a duplicate-keyword `TypeError` if
`attributes` already contains a deferred key or `bson_type`; the embedding's
dict-build overwrites instead, and theorems about `schemaF` exclude those
inputs.) -/
def schemaAssemble (f : Field) (deferred : List (String × Option MValue)) :
    List (String × MValue) :=
  let d1 := buildDict (f.attributes ++ deferred ++ [("bson_type", bsonTypeOpt f)])
  d1.foldl (fun acc p =>
    match p.2 with
    | some v => dictInsert acc (camelize p.1) v
    | none => acc) []

/-- `Field.schema()` with fuel-bounded recursion into child fields (leaves
never consume fuel; composites compile children at one less fuel). -/
def schemaF : Nat → Field → List (String × MValue)
  | 0, f => schemaAssemble f []
  | fuel + 1, f => schemaAssemble f (deferredAttributes (schemaF fuel) f)

/-! ### The manipulator pipeline (`manipulators.py`, `model.py`) -/

/-- A manipulator as the pipeline sees it: its `priority` and its two
transform methods.  `incoming`/`outgoing` is `none` when the class does not
override the corresponding no-op default — the model-level
`_manipulator_method_overwritten` function-identity test of `model.py` maps to
`Option.isSome` here.  The Python transforms also receive the model class;
no built-in manipulator's behaviour depends on it beyond `model.parse`, which
is modelled separately (`ParseInputsManipulator.transform_incoming`). -/
structure Manipulator where
  priority : Int
  incoming : Option (MValue → String → MValue)
  outgoing : Option (MValue → MValue)

/-- The ordering `Model.manipulators` sorts by (`key=lambda man: man.priority`). -/
def manLE (a b : Manipulator) : Prop := a.priority ≤ b.priority

instance : DecidableRel manLE := fun a b => Int.decLe a.priority b.priority

instance : IsTotal Manipulator manLE := ⟨fun a b => Int.le_total a.priority b.priority⟩

instance : IsTrans Manipulator manLE := ⟨fun _ _ _ => Int.le_trans⟩

/-- The `_extract_manipulators` walk of `Model.manipulators`: class attributes
are gathered ancestors-first into the `mans` dict, a later declaration under
the same attribute name overriding an earlier one in place. -/
def gatherManipulators (decls : List (String × Manipulator)) :
    List (String × Manipulator) :=
  decls.foldl (fun acc p => dictInsert acc p.1 p.2) []

/-- `Model.manipulators()`: gather the declared manipulators and sort them by
ascending priority (`sorted` is stable; so is insertion sort). -/
def manipulators (decls : List (String × Manipulator)) : List Manipulator :=
  List.insertionSort manLE ((gatherManipulators decls).map Prod.snd)

/-- The loop body of `Model.apply_incoming_manipulators` over an
already-resolved manipulator list: manipulators that do not override
`transform_incoming` are skipped. -/
def applyIncomingList (ms : List Manipulator) (doc : MValue) (action : String) :
    MValue :=
  ms.foldl (fun d m => match m.incoming with
    | some t => t d action
    | none => d) doc

/-- The loop body of `Model.apply_outgoing_manipulators` over an
already-resolved manipulator list (the document is known non-`None` here). -/
def applyOutgoingList (ms : List Manipulator) (doc : MValue) : MValue :=
  ms.foldl (fun d m => match m.outgoing with
    | some t => t d
    | none => d) doc

/-- `Model.apply_incoming_manipulators(doc, action)`. -/
def apply_incoming_manipulators (decls : List (String × Manipulator))
    (doc : MValue) (action : String) : MValue :=
  applyIncomingList (manipulators decls) doc action

/-- `Model.apply_outgoing_manipulators(doc)`: `None` is returned untouched
(the `if doc is not None` guard); otherwise every manipulator overriding
`transform_outgoing` runs in resolved order. -/
def apply_outgoing_manipulators (decls : List (String × Manipulator)) :
    Option MValue → Option MValue
  | none => none
  | some d => some (applyOutgoingList (manipulators decls) d)

/-- The three incoming actions of `manipulators.IncomingAction`. -/
def IncomingAction.CREATE : String := "CREATE"

def IncomingAction.REPLACE : String := "REPLACE"

def IncomingAction.UPDATE : String := "UPDATE"

/-- `ParseInputsManipulator.transform_incoming(doc, model, action)`
(`manipulators.py` lines 85-101): on `CREATE`/`REPLACE` the whole document is
parsed with defaults through `model.parse`; on `UPDATE` with a `$set` key only
that sub-document is re-parsed, without defaults, and written back under
`$set`; otherwise the document passes through unchanged.  The result threads
the fresh-call counter, and `none` propagates a parse error. -/
def ParseInputsManipulator.transform_incoming (schema? : Option Field)
    (doc : MValue) (action : String) (fuel σ : Nat) : Option (MValue × Nat) :=
  if action = IncomingAction.CREATE ∨ action = IncomingAction.REPLACE then
    modelParse schema? doc true fuel σ
  else if action = IncomingAction.UPDATE then
    match doc with
    | .doc kvs =>
      match lookupF "$set" kvs with
      | some v =>
        (modelParse schema? v false fuel σ).map
          (fun p => (MValue.doc (dictInsert kvs "$set" p.1), p.2))
      | none => some (doc, σ)
    | _ => some (doc, σ)
  else some (doc, σ)

/-! ### Reads: `WrappedCursor`, `Model.get`, `_wrap_outgoing` -/

/-- A wrapped cursor as `Model.get` builds one: the matching documents the
storage collaborator would yield in order, plus the applied limit.
(`pymongo`'s `Cursor.count()` is called without `with_limit_and_skip`, so it
counts all found, ignoring the limit.) -/
structure WrappedCursor where
  docs : List MValue
  lim : Nat

/-- `cursor.count()` — total match count, limit ignored. -/
def WrappedCursor.count (c : WrappedCursor) : Nat := c.docs.length

/-- The underlying `pymongo` cursor's `next()`: the first yielded document,
`none` when the cursor is exhausted (`StopIteration`). -/
def WrappedCursor.rawNext (c : WrappedCursor) : Option MValue := c.docs.head?

/-- `WrappedCursor.next` (`cursor.py`): fetch the next raw document and pass
it through the model's outgoing manipulators. -/
def WrappedCursor.next (decls : List (String × Manipulator)) (c : WrappedCursor) :
    Option MValue :=
  c.rawNext.map (applyOutgoingList (manipulators decls))

/-- The exceptions `Model.get` can raise (`exceptions.py`), plus the
`StopIteration` a `next()` on an exhausted cursor would raise. -/
inductive ModelError where
  | noDocumentFound
  | multipleDocumentsFound
  | stopIteration
deriving DecidableEq, Repr

/-- `Model.get(filter)` (`model.py` lines 153-181), parameterized by the
documents matching the filter: build `find(filter).limit(2)`, count the
found (the limit is ignored by `count()`), raise `NoDocumentFound` when the
count is below one, `MultipleDocumentsFound` when above one, and otherwise
return `apply_outgoing_manipulators(cursor.next())` — note that
`WrappedCursor.next` has itself already applied the outgoing manipulators. -/
def Model.get (decls : List (String × Manipulator)) (found : List MValue) :
    Except ModelError MValue :=
  let cursor : WrappedCursor := ⟨found, 2⟩
  let count := cursor.count
  if count < 1 then .error .noDocumentFound
  else if count > 1 then .error .multipleDocumentsFound
  else
    match WrappedCursor.next decls cursor with
    | some d => .ok (applyOutgoingList (manipulators decls) d)
    | none => .error .stopIteration

/-- `binder._wrap_outgoing` specialised to `find_one`: the fetched document
(`none` when no document found) is passed through
`Model.apply_outgoing_manipulators`. -/
def find_one_wrapped (decls : List (String × Manipulator))
    (fetched : Option MValue) : Option MValue :=
  apply_outgoing_manipulators decls fetched

/-! ### Index synchronization (`Model._update`, index phase) -/

/-- A normalized index declaration as `Model._indexes` produces it: only the
derived `document['name']` matters to the sync phase. -/
structure IndexModel where
  name : String
deriving DecidableEq, Repr

/-- The index phase of `Model._update` (`model.py` lines 416-426), as a
function from the live index names and the desired `IndexModel` list to the
pair (dropped index names, names passed to `create_indexes`): every existing
index other than `_id_` whose name is not desired is dropped; then, if any
desired index is missing, `create_indexes(indexes)` is issued — with the
*whole* desired list, not the computed `to_create` sublist. -/
def updateIndexes (existing : List String) (indexes : List IndexModel) :
    List String × List String :=
  let i_names := indexes.map IndexModel.name
  let dropped := existing.filter (fun n => n ≠ "_id_" && !(i_names.contains n))
  let to_create := indexes.filter (fun m => !(existing.contains m.name))
  let created := if to_create.length > 0 then indexes.map IndexModel.name else []
  (dropped, created)

/-! ### Predicates for the parse-idempotence analysis (claim C7) -/

/-- Whether a key list has no duplicates (dict keys always satisfy this in
Python; the embedding's association lists must assume it). -/
def nodupKeys : List String → Bool
  | [] => true
  | k :: t => !t.contains k && nodupKeys t

/-- The field's declared default is absent, or is a static value that is
`None` or a fixed point of the field's coercion; a factory default never
counts as fixed. -/
def defaultFixed (f : Field) : Bool :=
  match f.default with
  | none => true
  | some (.factory _) => false
  | some (.value v) =>
    v.isNull ||
      (match parseNonNull f v with
       | some w => MValue.beq w v
       | none => false)

/-- Whether a non-composite coercion kind is idempotent and never maps a
non-`None` value to `None`.  The numeric kinds are excluded: they map `""` to
`None` (which a later defaulted re-parse would replace by the default) and
coerce `"3"` to a number (so numeric string defaults are moving targets). -/
def idemKindOk : CoerceKind → Bool
  | .number => false
  | .int => false
  | _ => true

/-- The sufficient condition under which parsing with defaults is idempotent
(claim C7, amended): throughout the tree no factory defaults, every static
default `None` or a fixed point of its field's coercion, no numeric coercion
kinds, and no duplicate declared property keys.  Fuel-indexed in lockstep
with `parseF`. -/
def idemOkF : Nat → Field → Bool
  | 0, _ => false
  | fuel + 1, f =>
    defaultFixed f &&
    match f.shape with
    | .plain k => idemKindOk k
    | .dictF props ap _ =>
      nodupKeys (keysOf (props.getD [])) &&
      (props.getD []).all (fun p => idemOkF fuel p.2) &&
      (match ap with
       | .fieldP g => idemOkF fuel g
       | .boolP _ => true)
    | _ => true

/-- Whether no field reachable in the tree (within the given fuel) declares a
factory (callable) default — the hypothesis of claim C7 as stated. -/
def noFactories : Nat → Field → Bool
  | 0, _ => false
  | fuel + 1, f =>
    (match f.default with
     | some (.factory _) => false
     | _ => true) &&
    match f.shape with
    | .dictF props ap _ =>
      (props.getD []).all (fun p => noFactories fuel p.2) &&
      (match ap with
       | .fieldP g => noFactories fuel g
       | .boolP _ => true)
    | .listF (some g) => noFactories fuel g
    | .withFields _ _ fields => fields.all (fun g => noFactories fuel g)
    | .notF g => noFactories fuel g
    | _ => true

/-! ### Concrete fixtures used by the per-claim theorems -/

/-- `StringField()` with only `default`/`required` set (the other constructor
arguments at their `None` defaults). -/
def stringFieldDR (d : Option FieldDefault) (r : Bool) : Field :=
  StringField none none none d r none none none

/-- `DictField(props=...)` with every other constructor argument defaulted
(`additional_props=True`). -/
def dictFieldP (props : List (String × Field)) : Field :=
  DictField (some props) none none (.boolP true) none none false none none none

/-- Claim C2's model schema: `DictField(dict(name=StringField()))`. -/
def c2schema : Field := dictFieldP [("name", stringFieldDR none false)]

/-- Claim C3's model schema: `DictField(dict(name=StringField(required=True)))`
— the spec's example schema `{name: StringField(required=true)}`. -/
def c3schema : Field := dictFieldP [("name", stringFieldDR none true)]

/-- Claim C7's counterexample schema:
`DictField(dict(name=StringField(default=5)))` — a deterministic, non-factory
default that is not a fixed point of the string coercion. -/
def c7schema : Field := dictFieldP [("name", stringFieldDR (some (.value (.int 5))) false)]

/-- Claim C7's witness schema:
`DictField(dict(tag=StringField(default="x")))` — a static default that the
string coercion leaves unchanged. -/
def c7okSchema : Field := dictFieldP [("tag", stringFieldDR (some (.value (.str "x"))) false)]

/-- Claim C8's counterexample field: a plain `DictField()` (no props, no
default). -/
def c8dictField : Field :=
  DictField none none none (.boolP true) none none false none none none

/-- Claim C8's witness field: a `StringField` whose default is a factory
(modelled as returning the fresh-call index). -/
def c8factoryField : Field :=
  stringFieldDR (some (.factory (fun n => .int n))) false

/-- A transform that appends the manipulator's priority to an array document,
used to observe execution order in the pipeline claims. -/
def appendTag (p : Int) (d : MValue) : MValue :=
  match d with
  | .arr xs => .arr (xs ++ [.int p])
  | x => x

/-- A manipulator overriding both transforms, tagging with its priority. -/
def tagBoth (p : Int) : Manipulator :=
  ⟨p, some (fun d _ => appendTag p d), some (appendTag p)⟩

/-- A manipulator overriding only `transform_outgoing`. -/
def tagOut (p : Int) : Manipulator :=
  ⟨p, none, some (appendTag p)⟩

/-- A manipulator overriding only `transform_incoming`. -/
def tagIn (p : Int) : Manipulator :=
  ⟨p, some (fun d _ => appendTag p d), none⟩

/-- Claim C4's example declarations: priorities `[7, 0, 5]`, all overriding
both directions. -/
def c4decls : List (String × Manipulator) :=
  [("a", tagBoth 7), ("b", tagBoth 0), ("c", tagBoth 5)]

/-- Claim C4's skip example: the `[7, 0, 5]` trio plus an outgoing-only
manipulator at priority 3 and an incoming-only manipulator at priority 2. -/
def c4declsSkip : List (String × Manipulator) :=
  [("a", tagBoth 7), ("b", tagBoth 0), ("c", tagBoth 5), ("d", tagOut 3), ("e", tagIn 2)]

/-- The body of the inherited `Field.parse` on non-dict fields, abstracted
over the default and the coercion. -/
def parseBase (d : Option FieldDefault) (pn : MValue → Option MValue)
    (v : MValue) (wd : Bool) (σ : Nat) : Option (MValue × Nat) :=
  if !v.isNull then (pn v).map (fun w => (w, σ))
  else if !wd then some (v, σ)
  else
    match d with
    | none => some (v, σ)
    | some (.factory g) => some (g σ, σ + 1)
    | some (.value dv) => some (dv, σ)

/-- The re-parse-is-identity property of a single-value parse function
(with fresh-call-counter preservation). -/
def StableFun (pa : MValue → Nat → Option (MValue × Nat)) : Prop :=
  ∀ (v : MValue) (σ : Nat) (r : MValue) (σ' : Nat),
    pa v σ = some (r, σ') → σ' = σ ∧ pa r σ = some (r, σ)

/-- The additional-properties step of `DictField.parse`: keep all keys, keep
only declared keys, or parse undeclared values against the policy field. -/
def apStep (fuel : Nat) (props1 : List (String × Field)) (ap : APolicy)
    (wd : Bool) (data2 : List (String × MValue)) (σ2 : Nat) :
    Option (MValue × Nat) :=
  match ap with
  | .boolP false =>
    some (.doc (data2.filter (fun p => (keysOf props1).contains p.1)), σ2)
  | .boolP true => some (.doc data2, σ2)
  | .fieldP g =>
    match parseAdditional (fun v σ' => parseF fuel g v wd false σ')
        (keysOf props1) data2 σ2 with
    | none => none
    | some (data3, σ3) => some (.doc data3, σ3)

/-- The dict-parsing pipeline of `DictField.parse` after the data dict has
been extracted: parse declared entries in place, fill missing declared keys
from defaults when `with_defaults`, then apply the additional-properties
policy. -/
def dictPipeline (fuel : Nat) (props1 : List (String × Field)) (ap : APolicy)
    (wd : Bool) (data : List (String × MValue)) (σ : Nat) :
    Option (MValue × Nat) :=
  match parseEntries (fun g v σ' => parseF fuel g v wd false σ') props1 data σ with
  | none => none
  | some (data1, σ1) =>
    match (if wd then fillMissing (fun g v σ' => parseF fuel g v wd false σ')
        (keysOf data1) props1 σ1 else some ([], σ1)) with
    | none => none
    | some (fills, σ2) => apStep fuel props1 ap wd (data1 ++ fills) σ2

/-- The `additional_props` component of `idemOkF`, as a standalone function. -/
def apIdemOk (fuel : Nat) : APolicy → Bool
  | .fieldP g => idemOkF fuel g
  | .boolP _ => true

/-! ## Theorems -/

/-! ### Association-list lemmas -/

theorem contains_iff_mem (l : List String) (k : String) :
    l.contains k = true ↔ k ∈ l := List.elem_iff

theorem lookupF_map_replace {α : Type} (l : List (String × α)) (k : String) (v : α)
    (h : k ∈ keysOf l) :
    lookupF k (l.map (fun p => if p.1 = k then (k, v) else p)) = some v := by
  induction l with
  | nil => simp [keysOf] at h
  | cons p t ih =>
    obtain ⟨k1, v1⟩ := p
    by_cases hk : k1 = k
    · subst hk
      rw [List.map_cons, if_pos (show ((k1, v1) : String × α).1 = k1 from rfl)]
      simp [lookupF]
    · have h' : k ∈ keysOf t := by
        rcases (by simpa [keysOf] using h) with h1 | h1
        · exact absurd h1.symm hk
        · simpa [keysOf] using h1
      rw [List.map_cons, if_neg (show ¬ ((k1, v1) : String × α).1 = k from hk)]
      simp [lookupF, hk, ih h']

theorem lookupF_not_mem {α : Type} (l : List (String × α)) (k : String)
    (h : ¬ k ∈ keysOf l) : lookupF k l = none := by
  induction l with
  | nil => simp [lookupF]
  | cons p t ih =>
    obtain ⟨k1, v1⟩ := p
    have hk : k1 ≠ k := by
      intro e; exact h (by simp [keysOf, e])
    have h' : ¬ k ∈ keysOf t := fun m => h (by simp [keysOf] at m ⊢; exact Or.inr m)
    simp [lookupF, hk, ih h']

theorem lookupF_append {α : Type} (l1 l2 : List (String × α)) (k : String) :
    lookupF k (l1 ++ l2) =
      match lookupF k l1 with
      | some v => some v
      | none => lookupF k l2 := by
  induction l1 with
  | nil => simp [lookupF]
  | cons p t ih =>
    obtain ⟨k1, v1⟩ := p
    by_cases hk : k1 = k
    · subst hk; simp [lookupF]
    · simp [lookupF, hk, ih]

theorem lookupF_dictInsert_self {α : Type} (l : List (String × α)) (k : String) (v : α) :
    lookupF k (dictInsert l k v) = some v := by
  unfold dictInsert
  by_cases h : (keysOf l).contains k = true
  · simp only [h, if_true]
    exact lookupF_map_replace l k v ((contains_iff_mem _ _).mp h)
  · rw [if_neg h]
    rw [lookupF_append]
    rw [lookupF_not_mem l k (fun m => h ((contains_iff_mem _ _).mpr m))]
    simp [lookupF]

theorem lookupF_map_replace_ne {α : Type} (l : List (String × α)) (k k' : String)
    (v : α) (h : k' ≠ k) :
    lookupF k' (l.map (fun p => if p.1 = k then (k, v) else p)) = lookupF k' l := by
  induction l with
  | nil => simp [lookupF]
  | cons p t ih =>
    obtain ⟨k1, v1⟩ := p
    by_cases hk2 : k1 = k
    · subst hk2
      rw [List.map_cons, if_pos (show ((k1, v1) : String × α).1 = k1 from rfl)]
      simp [lookupF, Ne.symm h, ih]
    · rw [List.map_cons, if_neg (show ¬ ((k1, v1) : String × α).1 = k from hk2)]
      by_cases hk : k1 = k'
      · subst hk
        simp [lookupF]
      · simp [lookupF, hk, ih]

theorem lookupF_dictInsert_ne {α : Type} (l : List (String × α)) (k k' : String)
    (v : α) (h : k' ≠ k) : lookupF k' (dictInsert l k v) = lookupF k' l := by
  unfold dictInsert
  by_cases hc : (keysOf l).contains k = true
  · simp only [hc, if_true]
    exact lookupF_map_replace_ne l k k' v h
  · rw [if_neg hc, lookupF_append]
    have h2 : lookupF k' [(k, v)] = none := by simp [lookupF, Ne.symm h]
    rw [h2]
    cases lookupF k' l <;> simp

theorem keysOf_dictInsert_not_mem {α : Type} (l : List (String × α)) (k a : String) (v : α)
    (ha : ¬ a ∈ keysOf l) (hak : a ≠ k) : ¬ a ∈ keysOf (dictInsert l k v) := by
  unfold dictInsert
  by_cases hc : (keysOf l).contains k = true
  · simp only [hc, if_true]
    intro m
    simp only [keysOf, List.map_map, List.mem_map, Function.comp] at m
    obtain ⟨q, hq, he⟩ := m
    obtain ⟨k1, v1⟩ := q
    by_cases h1 : k1 = k
    · subst h1
      rw [if_pos (show ((k1, v1) : String × α).1 = k1 from rfl)] at he
      exact hak (show k1 = a from he).symm
    · rw [if_neg (show ¬ ((k1, v1) : String × α).1 = k from h1)] at he
      apply ha
      simp only [keysOf, List.mem_map]
      exact ⟨(k1, v1), hq, he⟩
  · rw [if_neg hc]
    intro m
    rcases (by simpa [keysOf] using m) with h1 | h1
    · exact ha (by simpa [keysOf] using h1)
    · exact hak h1

theorem buildDict_append_single {α : Type} (l : List (String × α)) (k : String) (v : α) :
    buildDict (l ++ [(k, v)]) = dictInsert (buildDict l) k v := by
  simp [buildDict, List.foldl_append]

theorem not_mem_keysOf_buildDict {α : Type} (l : List (String × α)) (a : String)
    (h : ¬ a ∈ keysOf l) : ¬ a ∈ keysOf (buildDict l) := by
  suffices H : ∀ acc : List (String × α), ¬ a ∈ keysOf acc →
      ¬ a ∈ keysOf (l.foldl (fun acc p => dictInsert acc p.1 p.2) acc) by
    exact H [] (by simp [keysOf])
  induction l with
  | nil =>
    intro acc hacc
    simpa only [List.foldl_nil] using hacc
  | cons p t ih =>
    intro acc hacc
    have hp : a ≠ p.1 := by
      intro e; exact h (by simp [keysOf, e])
    have ht : ¬ a ∈ keysOf t := fun m => h (by simp [keysOf] at m ⊢; exact Or.inr m)
    simp only [List.foldl_cons]
    exact ih ht _ (keysOf_dictInsert_not_mem acc p.1 a p.2 hacc hp)

theorem dictInsert_append {α : Type} (l : List (String × α)) (k : String) (v : α)
    (h : ¬ k ∈ keysOf l) : dictInsert l k v = l ++ [(k, v)] := by
  unfold dictInsert
  rw [if_neg (fun hc => h ((contains_iff_mem _ _).mp hc))]

/-- Claim C6: for every leaf field whose type tag is declared and is not
`"null"`, the compiled schema's `bsonType` attribute is the bare tag when the
field is required and the two-element array `[tag, "null"]` otherwise —
whatever the fuel, the declared default and any extra attributes not named
`bson_type`. -/
theorem C6_confirmed (fuel : Nat) (t : String) (d : Option FieldDefault) (req : Bool)
    (attrs : List (String × Option MValue)) (k : CoerceKind)
    (ht : t ≠ "null") (ha : ¬ "bson_type" ∈ keysOf attrs) :
    lookupF "bsonType" (schemaF fuel (Field.mk (some t) d req attrs (.plain k)))
      = some (if req then MValue.str t else .arr [.str t, .str "null"]) := by
  have hbt : bsonTypeOpt (Field.mk (some t) d req attrs (.plain k))
      = some (if req then MValue.str t else .arr [.str t, .str "null"]) := by
    cases req <;> simp [bsonTypeOpt, Field.type?, Field.required, ht]
  have hstep : schemaF fuel (Field.mk (some t) d req attrs (.plain k))
      = schemaAssemble (Field.mk (some t) d req attrs (.plain k)) [] := by
    cases fuel with
    | zero => rfl
    | succ n => simp [schemaF, deferredAttributes, Field.shape]
  rw [hstep]
  unfold schemaAssemble
  simp only [Field.attributes]
  rw [List.append_nil, buildDict_append_single, hbt]
  rw [dictInsert_append _ _ _
    (not_mem_keysOf_buildDict (α := Option MValue) attrs "bson_type" ha)]
  rw [List.foldl_append]
  simp only [List.foldl_cons, List.foldl_nil]
  rw [show camelize "bson_type" = "bsonType" from rfl]
  exact lookupF_dictInsert_self _ "bsonType" _

/-- Claim C6 witness: a required `StringField` compiles to `bsonType
"string"` and the same field with `required=False` to `["string", "null"]`. -/
theorem C6_confirmed_witness :
    lookupF "bsonType" (schemaF 1 (stringFieldDR none true)) = some (.str "string") ∧
    lookupF "bsonType" (schemaF 1 (stringFieldDR none false))
      = some (.arr [.str "string", .str "null"]) := by
  constructor
  · exact C6_confirmed 1 "string" none true _ .string (by decide) (by decide)
  · exact C6_confirmed 1 "string" none false _ .string (by decide) (by decide)

/-- Claim C1 (code bug): `Model._update` computes the list of desired indexes
not yet present (`to_create`) but then passes the FULL desired list to
`create_indexes`, so a pre-existing index whose name matches a desired one
(`name_1` here, both live and desired) is re-sent in a create command rather
than left untouched as the claim states; the drop side behaves as claimed
(`stale_1` is dropped, `_id_` and matching names are kept). -/
theorem C1_code_bug_eval :
    updateIndexes ["_id_", "name_1"] [⟨"name_1"⟩, ⟨"age_1"⟩]
      = ([], ["name_1", "age_1"]) ∧
    ("name_1" ∈ ["_id_", "name_1"] ∧ "name_1" ∈ ["name_1", "age_1"]) ∧
    updateIndexes ["_id_", "name_1", "stale_1"] [⟨"name_1"⟩]
      = (["stale_1"], []) := by
  refine ⟨rfl, ⟨by decide, by decide⟩, rfl⟩

/-- Claim C2 (code bug): `DictField.parse` at the document root writes the
injected `ObjectIDField` under `_id` into the SHARED declared `props` dict
(`fields.py` lines 325-326), so a plain parse call mutates the declared field
tree — `c2schema`'s property keys grow from `["name"]` to `["name", "_id"]` —
contradicting the claim that the template tree is never mutated. -/
theorem C2_code_bug_eval :
    c2schema.propsKeys = ["name"] ∧
    mutatesProps c2schema (.doc []) false true = true ∧
    (updatedField c2schema (.doc []) false true).propsKeys = ["name", "_id"] ∧
    updatedField c2schema (.doc []) false true ≠ c2schema ∧
    parseF 2 c2schema (.doc []) false true 0 = some (.doc [], 0) := by
  refine ⟨rfl, rfl, rfl, ?_, rfl⟩
  intro h
  have h2 := congrArg Field.propsKeys h
  rw [show (updatedField c2schema (.doc []) false true).propsKeys = ["name", "_id"] from rfl,
      show c2schema.propsKeys = ["name"] from rfl] at h2
  simp at h2

/-- Claim C3 counterexample: parsing the empty document against the spec's
example schema `{name: StringField(required=True)}` with defaults at the root
yields `{}` — no auto-generated identifier value appears under `_id`. -/
theorem C3_counterexample :
    parseF 3 c3schema (.doc []) true true 0 = some (.doc [], 0) ∧
    (MValue.doc []).hasKey "_id" = false := ⟨rfl, rfl⟩

/-- Claim C3 (amended): at the root, when no `_id` property is declared, an
implicit property of identifier (ObjectID) type is injected into the effective
property table — but it declares no default, so no identifier value is
auto-generated: parsing `{}` yields a document with neither `_id` nor `name`.
A supplied 24-hex `_id` string is coerced to an ObjectID by the injected
field. -/
theorem C3_amended :
    (∀ props : List (String × Field), ¬ "_id" ∈ keysOf props →
      effectiveProps (some props) true = props ++ [("_id", objectIDFieldDefault)] ∧
      objectIDFieldDefault.type? = some "objectId" ∧
      objectIDFieldDefault.default = none) ∧
    (parseF 3 c3schema (.doc []) true true 0 = some (.doc [], 0) ∧
      (MValue.doc []).hasKey "_id" = false ∧ (MValue.doc []).hasKey "name" = false) ∧
    parseF 3 c3schema (.doc [("_id", .str "0123456789abcdef01234567")]) true true 0
      = some (.doc [("_id", .oid "0123456789abcdef01234567")], 0) := by
  refine ⟨?_, ⟨rfl, rfl, rfl⟩, rfl⟩
  intro props h
  refine ⟨?_, rfl, rfl⟩
  unfold effectiveProps
  have hc : (keysOf props).contains "_id" = false := by
    cases hcc : (keysOf props).contains "_id"
    · rfl
    · exact absurd ((contains_iff_mem _ _).mp hcc) h
  rw [Option.getD_some]
  simp [hc, h]

/-- Claim C3 witness: the spec's example schema gains the injected `_id`
ObjectID property at the end of its effective property table. -/
theorem C3_amended_witness :
    effectiveProps (some [("name", stringFieldDR none true)]) true
      = [("name", stringFieldDR none true), ("_id", objectIDFieldDefault)] := by
  exact (C3_amended.1 [("name", stringFieldDR none true)] (by decide)).1

/-- Claim C10: `apply_outgoing_manipulators(None)` returns `None` for every
manipulator declaration list and independently of the declared pipeline (no
`transform_outgoing` ever runs on it), so a `find_one` that matches nothing
yields `None` rather than an error or a transformed value. -/
theorem C10_confirmed :
    ∀ decls decls' : List (String × Manipulator),
      apply_outgoing_manipulators decls none = none ∧
      find_one_wrapped decls none = none ∧
      apply_outgoing_manipulators decls none = apply_outgoing_manipulators decls' none :=
  fun _ _ => ⟨rfl, rfl, rfl⟩

/-- Claim C4: the resolved manipulator list is sorted by ascending priority;
a manipulator that does not override `transform_incoming` is skipped entirely
by the incoming pipeline, and one that does not override `transform_outgoing`
by the outgoing pipeline; the `[7, 0, 5]` example runs in the order
`0, 5, 7` on both paths, and adding an outgoing-only priority-3 and an
incoming-only priority-2 manipulator yields `0, 2, 5, 7` incoming and
`0, 3, 5, 7` outgoing. -/
theorem C4_confirmed :
    (∀ decls : List (String × Manipulator),
      List.Sorted manLE (manipulators decls)) ∧
    (∀ (l1 l2 : List Manipulator) (m : Manipulator) (doc : MValue) (action : String),
      m.incoming = none →
      applyIncomingList (l1 ++ m :: l2) doc action
        = applyIncomingList (l1 ++ l2) doc action) ∧
    (∀ (l1 l2 : List Manipulator) (m : Manipulator) (doc : MValue),
      m.outgoing = none →
      applyOutgoingList (l1 ++ m :: l2) doc = applyOutgoingList (l1 ++ l2) doc) ∧
    (apply_incoming_manipulators c4decls (.arr []) "CREATE"
        = .arr [.int 0, .int 5, .int 7] ∧
      apply_outgoing_manipulators c4decls (some (.arr []))
        = some (.arr [.int 0, .int 5, .int 7])) ∧
    (apply_incoming_manipulators c4declsSkip (.arr []) "CREATE"
        = .arr [.int 0, .int 2, .int 5, .int 7] ∧
      apply_outgoing_manipulators c4declsSkip (some (.arr []))
        = some (.arr [.int 0, .int 3, .int 5, .int 7])) := by
  refine ⟨?_, ?_, ?_, ⟨rfl, rfl⟩, ⟨rfl, rfl⟩⟩
  · intro decls
    exact List.sorted_insertionSort manLE _
  · intro l1 l2 m doc action hm
    simp [applyIncomingList, List.foldl_append, hm]
  · intro l1 l2 m doc hm
    simp [applyOutgoingList, List.foldl_append, hm]

/-- Claim C4 witness: an outgoing-only manipulator is skipped by the
incoming pipeline and an incoming-only one by the outgoing pipeline, at
concrete pipelines. -/
theorem C4_confirmed_witness :
    (tagOut 3).incoming = none ∧
    applyIncomingList ([tagBoth 0] ++ tagOut 3 :: [tagBoth 5]) (.arr []) "CREATE"
      = applyIncomingList ([tagBoth 0] ++ [tagBoth 5]) (.arr []) "CREATE" ∧
    (tagIn 2).outgoing = none ∧
    applyOutgoingList ([tagBoth 0] ++ tagIn 2 :: [tagBoth 5]) (.arr [])
      = applyOutgoingList ([tagBoth 0] ++ [tagBoth 5]) (.arr []) :=
  ⟨rfl, C4_confirmed.2.1 [tagBoth 0] [tagBoth 5] (tagOut 3) (.arr []) "CREATE" rfl,
   rfl, C4_confirmed.2.2.1 [tagBoth 0] [tagBoth 5] (tagIn 2) (.arr []) rfl⟩

/-- Claim C5: the built-in parse manipulator parses the whole incoming
document with defaults on `CREATE` and `REPLACE`; on `UPDATE` it replaces only
the value under `$set` with that sub-document parsed without defaults, leaving
every other key of the update document exactly as given, and returns the
document unchanged when no `$set` key is present. -/
theorem C5_confirmed (schema? : Option Field) (doc : MValue) (action : String)
    (fuel σ : Nat) :
    (action = IncomingAction.CREATE ∨ action = IncomingAction.REPLACE →
      ParseInputsManipulator.transform_incoming schema? doc action fuel σ
        = modelParse schema? doc true fuel σ) ∧
    (∀ (kvs : List (String × MValue)) (v : MValue),
      action = IncomingAction.UPDATE → doc = .doc kvs →
      lookupF "$set" kvs = some v →
      (ParseInputsManipulator.transform_incoming schema? doc action fuel σ
        = (modelParse schema? v false fuel σ).map
            (fun p => (MValue.doc (dictInsert kvs "$set" p.1), p.2)) ∧
       ∀ (k : String) (w : MValue), k ≠ "$set" →
         lookupF k (dictInsert kvs "$set" w) = lookupF k kvs)) ∧
    (∀ kvs : List (String × MValue),
      action = IncomingAction.UPDATE → doc = .doc kvs →
      lookupF "$set" kvs = none →
      ParseInputsManipulator.transform_incoming schema? doc action fuel σ
        = some (doc, σ)) := by
  refine ⟨?_, ?_, ?_⟩
  · intro h
    unfold ParseInputsManipulator.transform_incoming
    rw [if_pos h]
  · intro kvs v ha hd hs
    subst ha; subst hd
    constructor
    · unfold ParseInputsManipulator.transform_incoming
      rw [if_neg (by decide), if_pos rfl]
      simp [hs]
    · intro k w hk
      exact lookupF_dictInsert_ne kvs "$set" k w hk
  · intro kvs ha hd hs
    subst ha; subst hd
    unfold ParseInputsManipulator.transform_incoming
    rw [if_neg (by decide), if_pos rfl]
    simp [hs]

/-- Claim C5 witness: an `UPDATE` document with `$set` and `$inc` keys has
its `$set` sub-document parsed (the `name` value coerced to a string) while
the `$inc` entry is left exactly as given. -/
theorem C5_confirmed_witness :
    ParseInputsManipulator.transform_incoming (some c3schema)
        (.doc [("$set", .doc [("name", .int 1)]), ("$inc", .doc [("n", .int 2)])])
        "UPDATE" 3 0
      = some (.doc [("$set", .doc [("name", .str "1")]), ("$inc", .doc [("n", .int 2)])], 0) ∧
    lookupF "$inc" (dictInsert [("$set", MValue.doc [("name", .int 1)]),
        ("$inc", MValue.doc [("n", .int 2)])] "$set" (.doc [("name", .str "1")]))
      = some (.doc [("n", .int 2)]) := by
  have h := (C5_confirmed (some c3schema)
      (.doc [("$set", .doc [("name", .int 1)]), ("$inc", .doc [("n", .int 2)])])
      "UPDATE" 3 0).2.1
      [("$set", .doc [("name", .int 1)]), ("$inc", .doc [("n", .int 2)])]
      (.doc [("name", .int 1)]) rfl rfl rfl
  exact ⟨h.1.trans rfl, rfl⟩

/-- Claim C8 counterexample: a plain `DictField()` declares no default, yet
`parse(None, with_defaults=True)` returns `{}` — not the absent value `None`
that the claim requires when no default is declared. -/
theorem C8_counterexample :
    c8dictField.default = none ∧
    parseF 1 c8dictField .null true false 0 = some (.doc [], 0) ∧
    MValue.doc [] ≠ MValue.null := by
  refine ⟨rfl, rfl, by simp⟩

/-- Claim C8 (amended): `parse(None, with_defaults=False)` returns `None`
for every field kind; with defaults, a non-dict field resolves its declared
default — invoking a factory freshly on each call (the fresh-call index is
consumed), returning a static value as declared, and keeping `None` when no
default is declared — while a dict-shaped field instead materialises the empty
document and parses it with defaults, ignoring its declared default. -/
theorem C8_amended :
    (∀ (fuel : Nat) (f : Field) (root : Bool) (σ : Nat),
      parseF (fuel + 1) f .null false root σ = some (.null, σ)) ∧
    (∀ (fuel : Nat) (f : Field) (root : Bool) (σ : Nat), f.isDictShape = false →
      parseF (fuel + 1) f .null true root σ =
        (match f.default with
         | none => some (.null, σ)
         | some (.factory g) => some (g σ, σ + 1)
         | some (.value v) => some (v, σ))) ∧
    (∀ (fuel : Nat) (f : Field) (root : Bool) (σ : Nat), f.isDictShape = true →
      parseF (fuel + 1) f .null true root σ
        = parseF (fuel + 1) f (.doc []) true root σ) := by
  refine ⟨?_, ?_, ?_⟩
  · intro fuel f root σ
    obtain ⟨t, d, r, a, s⟩ := f
    cases s <;> rfl
  · intro fuel f root σ hf
    obtain ⟨t, d, r, a, s⟩ := f
    cases s with
    | dictF props ap rp => simp [Field.isDictShape] at hf
    | plain k =>
      cases d with
      | none => rfl
      | some fd => cases fd <;> rfl
    | listF g? =>
      cases d with
      | none => rfl
      | some fd => cases fd <;> rfl
    | withFields n b fs =>
      cases d with
      | none => rfl
      | some fd => cases fd <;> rfl
    | notF g =>
      cases d with
      | none => rfl
      | some fd => cases fd <;> rfl
  · intro fuel f root σ hf
    obtain ⟨t, d, r, a, s⟩ := f
    cases s with
    | dictF props ap rp => rfl
    | plain k => simp [Field.isDictShape] at hf
    | listF g? => simp [Field.isDictShape] at hf
    | withFields n b fs => simp [Field.isDictShape] at hf
    | notF g => simp [Field.isDictShape] at hf

/-- Claim C8 witness: without defaults `None` stays `None`; a factory
default is invoked freshly on each call (distinct fresh-call indices give
distinct values); a `DictField` parses `None` exactly as it parses `{}`. -/
theorem C8_amended_witness :
    parseF 1 (stringFieldDR none false) .null false false 3 = some (.null, 3) ∧
    parseF 1 c8factoryField .null true false 3 = some (.int 3, 4) ∧
    parseF 1 c8factoryField .null true false 4 = some (.int 4, 5) ∧
    parseF 1 c8dictField .null true false 0 = parseF 1 c8dictField (.doc []) true false 0 :=
  ⟨C8_amended.1 0 (stringFieldDR none false) false 3,
   (C8_amended.2.1 0 c8factoryField false 3 rfl).trans rfl,
   (C8_amended.2.1 0 c8factoryField false 4 rfl).trans rfl,
   C8_amended.2.2 0 c8dictField false 0 rfl⟩

/-- Claim C9 counterexample: on a single match `Model.get` applies the
outgoing pipeline twice — once inside `WrappedCursor.next` and once in
`Model.get` itself — so a priority-5 tagging manipulator stamps the document
twice, not once as the claim's "after applying the outgoing manipulators"
states. -/
theorem C9_counterexample :
    Model.get [("m", tagOut 5)] [.arr []] = .ok (.arr [.int 5, .int 5]) ∧
    applyOutgoingList (manipulators [("m", tagOut 5)]) (.arr []) = .arr [.int 5] ∧
    MValue.arr [.int 5, .int 5] ≠ MValue.arr [.int 5] := by
  refine ⟨rfl, rfl, by simp⟩

/-- Claim C9 (amended): `Model.get` fails with `NoDocumentFound` exactly
when no document matches and with `MultipleDocumentsFound` exactly when more
than one does; on exactly one match it returns that document with the
outgoing manipulator pipeline applied TWICE (by `WrappedCursor.next` and then
again by `Model.get`). -/
theorem C9_amended (decls : List (String × Manipulator)) (found : List MValue) :
    (Model.get decls found = .error .noDocumentFound ↔ found.length = 0) ∧
    (Model.get decls found = .error .multipleDocumentsFound ↔ found.length > 1) ∧
    (∀ d, found = [d] →
      Model.get decls found
        = .ok (applyOutgoingList (manipulators decls)
            (applyOutgoingList (manipulators decls) d))) := by
  match found with
  | [] =>
    refine ⟨by simp [show Model.get decls [] = Except.error ModelError.noDocumentFound from rfl],
      by simp [show Model.get decls [] = Except.error ModelError.noDocumentFound from rfl], ?_⟩
    intro d hd
    simp at hd
  | [d] =>
    refine ⟨?_, ?_, ?_⟩
    · rw [show Model.get decls [d]
          = .ok (applyOutgoingList (manipulators decls)
              (applyOutgoingList (manipulators decls) d)) from rfl]
      simp
    · rw [show Model.get decls [d]
          = .ok (applyOutgoingList (manipulators decls)
              (applyOutgoingList (manipulators decls) d)) from rfl]
      simp
    · intro d' hd
      have : d' = d := by simpa using hd.symm
      subst this
      rfl
  | d :: e :: t =>
    have h1 : ¬ ((⟨d :: e :: t, 2⟩ : WrappedCursor).count < 1) := by
      simp [WrappedCursor.count]
    have h2 : (⟨d :: e :: t, 2⟩ : WrappedCursor).count > 1 := by
      simp [WrappedCursor.count]
    have hres : Model.get decls (d :: e :: t) = .error .multipleDocumentsFound := by
      unfold Model.get
      rw [if_neg h1, if_pos h2]
    refine ⟨by simp [hres], by simp [hres, List.length_cons], ?_⟩
    intro d' hd
    simp at hd

/-! ### Soundness of the value-equality test and basic facts -/

mutual

theorem MValue.beq_iff : ∀ a b : MValue, MValue.beq a b = true ↔ a = b
  | .null, .null => by simp [MValue.beq]
  | .str _, .str _ => by simp [MValue.beq]
  | .int _, .int _ => by simp [MValue.beq]
  | .float _, .float _ => by simp [MValue.beq]
  | .bool _, .bool _ => by simp [MValue.beq]
  | .date _, .date _ => by simp [MValue.beq]
  | .oid _, .oid _ => by simp [MValue.beq]
  | .arr a, .arr b => by
    simp only [MValue.beq, MValue.beqList_iff a b, MValue.arr.injEq]
  | .doc a, .doc b => by
    simp only [MValue.beq, MValue.beqKvs_iff a b, MValue.doc.injEq]
  | .null, .str _ => by simp [MValue.beq]
  | .null, .int _ => by simp [MValue.beq]
  | .null, .float _ => by simp [MValue.beq]
  | .null, .bool _ => by simp [MValue.beq]
  | .null, .date _ => by simp [MValue.beq]
  | .null, .oid _ => by simp [MValue.beq]
  | .null, .arr _ => by simp [MValue.beq]
  | .null, .doc _ => by simp [MValue.beq]
  | .str _, .null => by simp [MValue.beq]
  | .str _, .int _ => by simp [MValue.beq]
  | .str _, .float _ => by simp [MValue.beq]
  | .str _, .bool _ => by simp [MValue.beq]
  | .str _, .date _ => by simp [MValue.beq]
  | .str _, .oid _ => by simp [MValue.beq]
  | .str _, .arr _ => by simp [MValue.beq]
  | .str _, .doc _ => by simp [MValue.beq]
  | .int _, .null => by simp [MValue.beq]
  | .int _, .str _ => by simp [MValue.beq]
  | .int _, .float _ => by simp [MValue.beq]
  | .int _, .bool _ => by simp [MValue.beq]
  | .int _, .date _ => by simp [MValue.beq]
  | .int _, .oid _ => by simp [MValue.beq]
  | .int _, .arr _ => by simp [MValue.beq]
  | .int _, .doc _ => by simp [MValue.beq]
  | .float _, .null => by simp [MValue.beq]
  | .float _, .str _ => by simp [MValue.beq]
  | .float _, .int _ => by simp [MValue.beq]
  | .float _, .bool _ => by simp [MValue.beq]
  | .float _, .date _ => by simp [MValue.beq]
  | .float _, .oid _ => by simp [MValue.beq]
  | .float _, .arr _ => by simp [MValue.beq]
  | .float _, .doc _ => by simp [MValue.beq]
  | .bool _, .null => by simp [MValue.beq]
  | .bool _, .str _ => by simp [MValue.beq]
  | .bool _, .int _ => by simp [MValue.beq]
  | .bool _, .float _ => by simp [MValue.beq]
  | .bool _, .date _ => by simp [MValue.beq]
  | .bool _, .oid _ => by simp [MValue.beq]
  | .bool _, .arr _ => by simp [MValue.beq]
  | .bool _, .doc _ => by simp [MValue.beq]
  | .date _, .null => by simp [MValue.beq]
  | .date _, .str _ => by simp [MValue.beq]
  | .date _, .int _ => by simp [MValue.beq]
  | .date _, .float _ => by simp [MValue.beq]
  | .date _, .bool _ => by simp [MValue.beq]
  | .date _, .oid _ => by simp [MValue.beq]
  | .date _, .arr _ => by simp [MValue.beq]
  | .date _, .doc _ => by simp [MValue.beq]
  | .oid _, .null => by simp [MValue.beq]
  | .oid _, .str _ => by simp [MValue.beq]
  | .oid _, .int _ => by simp [MValue.beq]
  | .oid _, .float _ => by simp [MValue.beq]
  | .oid _, .bool _ => by simp [MValue.beq]
  | .oid _, .date _ => by simp [MValue.beq]
  | .oid _, .arr _ => by simp [MValue.beq]
  | .oid _, .doc _ => by simp [MValue.beq]
  | .arr _, .null => by simp [MValue.beq]
  | .arr _, .str _ => by simp [MValue.beq]
  | .arr _, .int _ => by simp [MValue.beq]
  | .arr _, .float _ => by simp [MValue.beq]
  | .arr _, .bool _ => by simp [MValue.beq]
  | .arr _, .date _ => by simp [MValue.beq]
  | .arr _, .oid _ => by simp [MValue.beq]
  | .arr _, .doc _ => by simp [MValue.beq]
  | .doc _, .null => by simp [MValue.beq]
  | .doc _, .str _ => by simp [MValue.beq]
  | .doc _, .int _ => by simp [MValue.beq]
  | .doc _, .float _ => by simp [MValue.beq]
  | .doc _, .bool _ => by simp [MValue.beq]
  | .doc _, .date _ => by simp [MValue.beq]
  | .doc _, .oid _ => by simp [MValue.beq]
  | .doc _, .arr _ => by simp [MValue.beq]

theorem MValue.beqList_iff : ∀ a b : List MValue, MValue.beqList a b = true ↔ a = b
  | [], [] => by simp [MValue.beqList]
  | x :: xs, y :: ys => by
    simp [MValue.beqList, MValue.beq_iff x y, MValue.beqList_iff xs ys]
  | [], _ :: _ => by simp [MValue.beqList]
  | _ :: _, [] => by simp [MValue.beqList]

theorem MValue.beqKvs_iff : ∀ a b : List (String × MValue), MValue.beqKvs a b = true ↔ a = b
  | [], [] => by simp [MValue.beqKvs]
  | (k, v) :: xs, (k2, v2) :: ys => by
    simp [MValue.beqKvs, MValue.beq_iff v v2, MValue.beqKvs_iff xs ys]
  | [], _ :: _ => by simp [MValue.beqKvs]
  | _ :: _, [] => by simp [MValue.beqKvs]

end

theorem MValue.eq_of_beq {a b : MValue} (h : MValue.beq a b = true) : a = b :=
  (MValue.beq_iff a b).mp h

theorem MValue.isNull_iff (v : MValue) : v.isNull = true ↔ v = .null := by
  cases v <;> simp [MValue.isNull]

theorem mem_keysOf_of_lookupF {α : Type} (l : List (String × α)) (k : String) (g : α)
    (h : lookupF k l = some g) : (k, g) ∈ l ∧ k ∈ keysOf l := by
  induction l with
  | nil => simp [lookupF] at h
  | cons p t ih =>
    obtain ⟨k1, v1⟩ := p
    by_cases hk : k1 = k
    · subst hk
      rw [show lookupF k1 ((k1, v1) :: t) = some v1 by simp [lookupF]] at h
      injection h with h
      subst h
      exact ⟨List.mem_cons_self _ _, by simp [keysOf]⟩
    · rw [show lookupF k ((k1, v1) :: t) = lookupF k t by simp [lookupF, hk]] at h
      obtain ⟨h1, h2⟩ := ih h
      exact ⟨List.mem_cons_of_mem _ h1, by simp [keysOf] at h2 ⊢; exact Or.inr h2⟩

theorem lookupF_of_mem_nodup {α : Type} (l : List (String × α)) (k : String) (g : α)
    (hnd : nodupKeys (keysOf l) = true) (hm : (k, g) ∈ l) : lookupF k l = some g := by
  induction l with
  | nil => simp at hm
  | cons p t ih =>
    obtain ⟨k1, v1⟩ := p
    have hnd2 : (keysOf t).contains k1 = false ∧ nodupKeys (keysOf t) = true := by
      have h0 := hnd
      simp only [keysOf, List.map_cons, nodupKeys, Bool.and_eq_true,
        Bool.not_eq_true'] at h0
      exact ⟨h0.1, h0.2⟩
    rcases List.mem_cons.mp hm with he | ht
    · injection he with h1 h2
      simp [lookupF, h1.symm, h2]
    · by_cases hk : k1 = k
      · subst hk
        have : k1 ∈ keysOf t := (mem_keysOf_of_lookupF t k1 g ?_).2
        · rw [(contains_iff_mem (keysOf t) k1).mpr this] at hnd2
          exact absurd hnd2.1 (by simp)
        · exact ih hnd2.2 ht
      · simp [lookupF, hk, ih hnd2.2 ht]

/-- Coercion facts for the idempotence-compatible kinds: the coerced value is
never `None` and re-coercing it is the identity. -/
theorem parseNonNull_ok (f : Field) (v w : MValue) (hv : v.isNull = false)
    (hkind : (match f.shape with
      | FieldShape.plain k => idemKindOk k
      | _ => true) = true)
    (h : parseNonNull f v = some w) :
    w.isNull = false ∧ parseNonNull f w = some w := by
  obtain ⟨t, d, req, a, s⟩ := f
  cases s with
  | plain k =>
    cases k with
    | base =>
      rw [show parseNonNull (Field.mk t d req a (.plain .base)) v = some v from rfl] at h
      injection h with h
      subst h
      exact ⟨hv, rfl⟩
    | string =>
      rw [show parseNonNull (Field.mk t d req a (.plain .string)) v
          = some (.str (pystr v)) from rfl] at h
      injection h with h
      subst h
      exact ⟨rfl, by simp [parseNonNull, Field.shape, coerceKind, pystr]⟩
    | number => simp [Field.shape, idemKindOk] at hkind
    | int => simp [Field.shape, idemKindOk] at hkind
    | date =>
      simp only [parseNonNull, Field.shape, coerceKind] at h
      cases v with
      | date s =>
        injection h with h
        subst h
        exact ⟨rfl, by simp [parseNonNull, Field.shape, coerceKind]⟩
      | str s =>
        have h2 : Option.map (fun u => MValue.date u) (dateutilParse s) = some w := h
        cases hdu : dateutilParse s with
        | none => rw [hdu] at h2; simp at h2
        | some u =>
          rw [hdu] at h2
          have h3 : some (MValue.date u) = some w := h2
          injection h3 with h3
          subst h3
          exact ⟨rfl, by simp [parseNonNull, Field.shape, coerceKind]⟩
      | null => simp at h
      | int n => simp at h
      | float q => simp at h
      | bool b => simp at h
      | oid s => simp at h
      | arr xs => simp at h
      | doc kvs => simp at h
    | oid =>
      simp only [parseNonNull, Field.shape, coerceKind] at h
      cases v with
      | oid s =>
        injection h with h
        subst h
        exact ⟨rfl, by simp [parseNonNull, Field.shape, coerceKind]⟩
      | str s =>
        have h2 : (if isHex24 s then some (MValue.oid s) else none) = some w := h
        cases hh : isHex24 s with
        | false => rw [hh] at h2; simp at h2
        | true =>
          rw [hh] at h2
          simp only [if_true] at h2
          injection h2 with h2
          subst h2
          exact ⟨rfl, by simp [parseNonNull, Field.shape, coerceKind]⟩
      | null => simp at h
      | int n => simp at h
      | float q => simp at h
      | bool b => simp at h
      | date s => simp at h
      | arr xs => simp at h
      | doc kvs => simp at h
  | listF g? =>
    simp only [parseNonNull, Field.shape] at h ⊢
    cases v with
    | arr xs =>
      rw [show listCoerce (.arr xs) = some (.arr xs) from rfl] at h
      injection h with h
      subst h
      exact ⟨rfl, rfl⟩
    | str s =>
      rw [show listCoerce (.str s)
          = some (.arr (s.data.map (fun c => MValue.str (String.mk [c])))) from rfl] at h
      injection h with h
      subst h
      exact ⟨rfl, rfl⟩
    | doc kvs =>
      rw [show listCoerce (.doc kvs)
          = some (.arr ((keysOf kvs).map (fun k => MValue.str k))) from rfl] at h
      injection h with h
      subst h
      exact ⟨rfl, rfl⟩
    | null => simp [listCoerce] at h
    | int n => simp [listCoerce] at h
    | float q => simp [listCoerce] at h
    | bool b => simp [listCoerce] at h
    | date s => simp [listCoerce] at h
    | oid s => simp [listCoerce] at h
  | dictF props ap rp =>
    rw [show parseNonNull (Field.mk t d req a (.dictF props ap rp)) v = some v from rfl] at h
    injection h with h
    subst h
    exact ⟨hv, rfl⟩
  | withFields n2 b fs =>
    rw [show parseNonNull (Field.mk t d req a (.withFields n2 b fs)) v = some v from rfl] at h
    injection h with h
    subst h
    exact ⟨hv, rfl⟩
  | notF g =>
    rw [show parseNonNull (Field.mk t d req a (.notF g)) v = some v from rfl] at h
    injection h with h
    subst h
    exact ⟨hv, rfl⟩

/-- The behaviour of `parseF` on non-dict fields (the inherited
`Field.parse`), as one equation. -/
theorem parse_base_eq (n : Nat) (t : Option String) (d : Option FieldDefault)
    (req : Bool) (a : List (String × Option MValue)) (s : FieldShape)
    (hs : (Field.mk t d req a s).isDictShape = false) (v : MValue)
    (wd root : Bool) (σ : Nat) :
    parseF (n + 1) (Field.mk t d req a s) v wd root σ =
      parseBase d (parseNonNull (Field.mk t d req a s)) v wd σ := by
  cases s with
  | dictF p ap rp => simp [Field.isDictShape] at hs
  | plain k => rfl
  | listF g => rfl
  | withFields n2 b fs => rfl
  | notF g => rfl

/-- Re-parsing the output of a non-dict field's parse is the identity, and the
fresh-call counter is untouched, provided the kind is idempotence-compatible
and the declared default is fixed. -/
theorem parse_idem_plain (n : Nat) (f : Field) (v : MValue) (wd root : Bool)
    (σ : Nat) (r : MValue) (σ' : Nat)
    (hshape : f.isDictShape = false)
    (hkind : (match f.shape with
      | FieldShape.plain k => idemKindOk k
      | _ => true) = true)
    (hdef : defaultFixed f = true)
    (hp : parseF (n + 1) f v wd root σ = some (r, σ')) :
    σ' = σ ∧ parseF (n + 1) f r wd root σ = some (r, σ) := by
  obtain ⟨t, d, req, a, s⟩ := f
  rw [parse_base_eq n t d req a s hshape v wd root σ] at hp
  cases hv : v.isNull with
  | false =>
    unfold parseBase at hp
    rw [hv] at hp
    simp only [Bool.not_false, if_true] at hp
    cases hpn : parseNonNull (Field.mk t d req a s) v with
    | none => rw [hpn] at hp; simp at hp
    | some w =>
      rw [hpn] at hp
      have h3 : (some (w, σ) : Option (MValue × Nat)) = some (r, σ') := hp
      injection h3 with h3
      have hw : w = r := congrArg Prod.fst h3
      have hσ : σ = σ' := congrArg Prod.snd h3
      subst hw
      obtain ⟨hnn, hid⟩ := parseNonNull_ok _ v w hv hkind hpn
      refine ⟨hσ.symm, ?_⟩
      rw [parse_base_eq n t d req a s hshape w wd root σ]
      unfold parseBase
      rw [hnn]
      simp only [Bool.not_false, if_true]
      rw [hid]
      rfl
  | true =>
    have hveq : v = .null := (MValue.isNull_iff v).mp hv
    subst hveq
    unfold parseBase at hp
    simp only [show MValue.null.isNull = true from rfl, Bool.not_true,
      Bool.false_eq_true, if_false] at hp
    cases wd with
    | false =>
      simp only [Bool.not_false, if_true] at hp
      have h3 : (some (MValue.null, σ) : Option (MValue × Nat)) = some (r, σ') := hp
      injection h3 with h3
      have hw : MValue.null = r := congrArg Prod.fst h3
      have hσ : σ = σ' := congrArg Prod.snd h3
      subst hw
      refine ⟨hσ.symm, ?_⟩
      rw [parse_base_eq n t d req a s hshape .null false root σ]
      unfold parseBase
      rfl
    | true =>
      simp only [Bool.not_true, Bool.false_eq_true, if_false] at hp
      cases d with
      | none =>
        have h3 : (some (MValue.null, σ) : Option (MValue × Nat)) = some (r, σ') := hp
        injection h3 with h3
        have hw : MValue.null = r := congrArg Prod.fst h3
        have hσ : σ = σ' := congrArg Prod.snd h3
        subst hw
        refine ⟨hσ.symm, ?_⟩
        rw [parse_base_eq n t none req a s hshape .null true root σ]
        unfold parseBase
        rfl
      | some fd =>
        cases fd with
        | factory g =>
          simp [defaultFixed, Field.default] at hdef
        | value dv =>
          have h3 : (some (dv, σ) : Option (MValue × Nat)) = some (r, σ') := hp
          injection h3 with h3
          have hw : dv = r := congrArg Prod.fst h3
          have hσ : σ = σ' := congrArg Prod.snd h3
          subst hw
          refine ⟨hσ.symm, ?_⟩
          have hdef2 : (dv.isNull ||
              (match parseNonNull (Field.mk t (some (.value dv)) req a s) dv with
               | some w => MValue.beq w dv
               | none => false)) = true := hdef
          cases hdvn : dv.isNull with
          | true =>
            have hdveq : dv = .null := (MValue.isNull_iff dv).mp hdvn
            subst hdveq
            rw [parse_base_eq n t (some (.value .null)) req a s hshape .null true root σ]
            unfold parseBase
            rfl
          | false =>
            rw [hdvn] at hdef2
            simp only [Bool.false_or] at hdef2
            cases hw2 : parseNonNull (Field.mk t (some (.value dv)) req a s) dv with
            | none => rw [hw2] at hdef2; simp at hdef2
            | some w =>
              rw [hw2] at hdef2
              have hbeq : MValue.beq w dv = true := hdef2
              have hweq : w = dv := MValue.eq_of_beq hbeq
              subst hweq
              rw [parse_base_eq n t (some (.value w)) req a s hshape w true root σ]
              unfold parseBase
              rw [hdvn]
              simp only [Bool.not_false, if_true]
              rw [hw2]
              rfl

theorem parseEntries_spec (pf : Field → MValue → Nat → Option (MValue × Nat))
    (props1 : List (String × Field))
    (hHP : ∀ k g, lookupF k props1 = some g → StableFun (pf g)) :
    ∀ (data : List (String × MValue)) (σ : Nat)
      (data1 : List (String × MValue)) (σ1 : Nat),
      parseEntries pf props1 data σ = some (data1, σ1) →
      σ1 = σ ∧ keysOf data1 = keysOf data ∧
      (∀ k w, (k, w) ∈ data1 → ∀ g, lookupF k props1 = some g →
        pf g w σ = some (w, σ)) := by
  intro data
  induction data with
  | nil =>
    intro σ data1 σ1 h
    have h2 : (some (([] : List (String × MValue)), σ) : Option _) = some (data1, σ1) := h
    injection h2 with h2
    have hl : ([] : List (String × MValue)) = data1 := congrArg Prod.fst h2
    have hσ : σ = σ1 := congrArg Prod.snd h2
    subst hl
    exact ⟨hσ.symm, rfl, by intro k w hw; simp at hw⟩
  | cons e rest ih =>
    obtain ⟨k, v⟩ := e
    intro σ data1 σ1 h
    cases hg : lookupF k props1 with
    | some g =>
      have h2 : (match pf g v σ with
          | some (w, σ') => (parseEntries pf props1 rest σ').map
              (fun p => ((k, w) :: p.1, p.2))
          | none => none) = some (data1, σ1) := by
        rw [show parseEntries pf props1 ((k, v) :: rest) σ
            = (match lookupF k props1 with
               | some g =>
                 match pf g v σ with
                 | some (w, σ') => (parseEntries pf props1 rest σ').map
                     (fun p => ((k, w) :: p.1, p.2))
                 | none => none
               | none => (parseEntries pf props1 rest σ).map
                   (fun p => ((k, v) :: p.1, p.2))) from rfl, hg] at h
        exact h
      cases hpg : pf g v σ with
      | none => rw [hpg] at h2; simp at h2
      | some p =>
        obtain ⟨w, σ'⟩ := p
        rw [hpg] at h2
        obtain ⟨hσ', hre⟩ := hHP k g hg v σ w σ' hpg
        rw [hσ'] at h2
        have h4 : (parseEntries pf props1 rest σ).map
            (fun p => ((k, w) :: p.1, p.2)) = some (data1, σ1) := h2
        cases hrest : parseEntries pf props1 rest σ with
        | none => rw [hrest] at h4; simp at h4
        | some q =>
          obtain ⟨l, σ''⟩ := q
          rw [hrest] at h4
          have h3 : (some ((k, w) :: l, σ'') : Option _) = some (data1, σ1) := h4
          injection h3 with h3
          have hl : (k, w) :: l = data1 := congrArg Prod.fst h3
          have hσ : σ'' = σ1 := congrArg Prod.snd h3
          subst hl
          obtain ⟨hσ2, hkeys, hpoint⟩ := ih σ l σ'' hrest
          refine ⟨hσ.symm.trans hσ2, ?_, ?_⟩
          · simp only [keysOf, List.map_cons]
            simp only [keysOf] at hkeys
            rw [hkeys]
          · intro k0 w0 hmem g0 hg0
            rcases List.mem_cons.mp hmem with he | ht
            · injection he with he1 he2
              subst he1
              subst he2
              rw [hg] at hg0
              injection hg0 with hg0
              subst hg0
              exact hre
            · exact hpoint k0 w0 ht g0 hg0
    | none =>
      have h2 : (parseEntries pf props1 rest σ).map
          (fun p => ((k, v) :: p.1, p.2)) = some (data1, σ1) := by
        rw [show parseEntries pf props1 ((k, v) :: rest) σ
            = (match lookupF k props1 with
               | some g =>
                 match pf g v σ with
                 | some (w, σ') => (parseEntries pf props1 rest σ').map
                     (fun p => ((k, w) :: p.1, p.2))
                 | none => none
               | none => (parseEntries pf props1 rest σ).map
                   (fun p => ((k, v) :: p.1, p.2))) from rfl, hg] at h
        exact h
      cases hrest : parseEntries pf props1 rest σ with
      | none => rw [hrest] at h2; simp at h2
      | some q =>
        obtain ⟨l, σ''⟩ := q
        rw [hrest] at h2
        have h3 : (some ((k, v) :: l, σ'') : Option _) = some (data1, σ1) := h2
        injection h3 with h3
        have hl : (k, v) :: l = data1 := congrArg Prod.fst h3
        have hσ : σ'' = σ1 := congrArg Prod.snd h3
        subst hl
        obtain ⟨hσ2, hkeys, hpoint⟩ := ih σ l σ'' hrest
        refine ⟨hσ.symm.trans hσ2, ?_, ?_⟩
        · simp only [keysOf, List.map_cons]
          simp only [keysOf] at hkeys
          rw [hkeys]
        · intro k0 w0 hmem g0 hg0
          rcases List.mem_cons.mp hmem with he | ht
          · injection he with he1 he2
            subst he1
            rw [hg] at hg0
            exact absurd hg0 (by simp)
          · exact hpoint k0 w0 ht g0 hg0

theorem parseEntries_stable (pf : Field → MValue → Nat → Option (MValue × Nat))
    (props1 : List (String × Field)) :
    ∀ (l : List (String × MValue)) (σ : Nat),
      (∀ k w, (k, w) ∈ l → ∀ g, lookupF k props1 = some g → pf g w σ = some (w, σ)) →
      parseEntries pf props1 l σ = some (l, σ) := by
  intro l
  induction l with
  | nil => intro σ _; rfl
  | cons e rest ih =>
    obtain ⟨k, v⟩ := e
    intro σ h
    have hrest := ih σ (fun k0 w0 hm g hg => h k0 w0 (List.mem_cons_of_mem _ hm) g hg)
    show (match lookupF k props1 with
          | some g =>
            match pf g v σ with
            | some (w, σ') => (parseEntries pf props1 rest σ').map
                (fun p => ((k, w) :: p.1, p.2))
            | none => none
          | none => (parseEntries pf props1 rest σ).map
              (fun p => ((k, v) :: p.1, p.2))) = some ((k, v) :: rest, σ)
    cases hg : lookupF k props1 with
    | some g =>
      have hv := h k v (List.mem_cons_self _ _) g hg
      show (match pf g v σ with
            | some (w, σ') => (parseEntries pf props1 rest σ').map
                (fun p => ((k, w) :: p.1, p.2))
            | none => none) = some ((k, v) :: rest, σ)
      rw [hv]
      show (parseEntries pf props1 rest σ).map (fun p => ((k, v) :: p.1, p.2))
          = some ((k, v) :: rest, σ)
      rw [hrest]
      rfl
    | none =>
      show (parseEntries pf props1 rest σ).map (fun p => ((k, v) :: p.1, p.2))
          = some ((k, v) :: rest, σ)
      rw [hrest]
      rfl

theorem fillMissing_spec (pf : Field → MValue → Nat → Option (MValue × Nat))
    (dataKeys : List String) :
    ∀ (props1 : List (String × Field)) (σ : Nat) (fills : List (String × MValue))
      (σ2 : Nat),
      (∀ k g, (k, g) ∈ props1 → StableFun (pf g)) →
      fillMissing pf dataKeys props1 σ = some (fills, σ2) →
      σ2 = σ ∧
      (∀ k w, (k, w) ∈ fills →
        dataKeys.contains k = false ∧ k ∈ keysOf props1 ∧ w.isNull = false ∧
        ∃ g, (k, g) ∈ props1 ∧ pf g .null σ = some (w, σ)) ∧
      (∀ k g, (k, g) ∈ props1 → dataKeys.contains k = false → ¬ k ∈ keysOf fills →
        pf g .null σ = some (.null, σ)) := by
  intro props1
  induction props1 with
  | nil =>
    intro σ fills σ2 _ h
    have h2 : (some (([] : List (String × MValue)), σ) : Option _) = some (fills, σ2) := h
    injection h2 with h2
    have hl : ([] : List (String × MValue)) = fills := congrArg Prod.fst h2
    have hσ : σ = σ2 := congrArg Prod.snd h2
    subst hl
    refine ⟨hσ.symm, by intro k w hw; simp at hw, by intro k g hm; simp at hm⟩
  | cons e rest ih =>
    obtain ⟨k, g⟩ := e
    intro σ fills σ2 hHP h
    have h0 : (if dataKeys.contains k then fillMissing pf dataKeys rest σ
        else
          match pf g .null σ with
          | some (w, σ') =>
            if w.isNull then fillMissing pf dataKeys rest σ'
            else (fillMissing pf dataKeys rest σ').map (fun p => ((k, w) :: p.1, p.2))
          | none => none) = some (fills, σ2) := h
    have hHPrest : ∀ k0 g0, (k0, g0) ∈ rest → StableFun (pf g0) :=
      fun k0 g0 hm => hHP k0 g0 (List.mem_cons_of_mem _ hm)
    cases hdk : dataKeys.contains k with
    | true =>
      rw [if_pos hdk] at h0
      obtain ⟨hσ, hfill, hskip⟩ := ih σ fills σ2 hHPrest h0
      refine ⟨hσ, ?_, ?_⟩
      · intro k0 w0 hm
        obtain ⟨c1, c2, c3, g0, c4, c5⟩ := hfill k0 w0 hm
        exact ⟨c1, by simp [keysOf] at c2 ⊢; exact Or.inr c2, c3, g0,
          List.mem_cons_of_mem _ c4, c5⟩
      · intro k0 g0 hm hc hnm
        rcases List.mem_cons.mp hm with he | ht
        · injection he with he1 he2
          subst he1
          rw [hdk] at hc
          exact absurd hc (by simp)
        · exact hskip k0 g0 ht hc hnm
    | false =>
      rw [if_neg (by simp only [hdk]; exact Bool.false_ne_true)] at h0
      cases hpg : pf g .null σ with
      | none => rw [hpg] at h0; simp at h0
      | some p =>
        obtain ⟨w, σ'⟩ := p
        rw [hpg] at h0
        obtain ⟨hσ', hre⟩ := hHP k g (List.mem_cons_self _ _) .null σ w σ' hpg
        rw [hσ'] at h0 hpg
        cases hwn : w.isNull with
        | true =>
          have hweq : w = .null := (MValue.isNull_iff w).mp hwn
          subst hweq
          have h1 : fillMissing pf dataKeys rest σ = some (fills, σ2) := by
            rw [show (match (some (MValue.null, σ) : Option (MValue × Nat)) with
                | some (w, σ') =>
                  if w.isNull then fillMissing pf dataKeys rest σ'
                  else (fillMissing pf dataKeys rest σ').map
                    (fun p => ((k, w) :: p.1, p.2))
                | none => none)
                = fillMissing pf dataKeys rest σ from rfl] at h0
            exact h0
          obtain ⟨hσ, hfill, hskip⟩ := ih σ fills σ2 hHPrest h1
          refine ⟨hσ, ?_, ?_⟩
          · intro k0 w0 hm
            obtain ⟨c1, c2, c3, g0, c4, c5⟩ := hfill k0 w0 hm
            exact ⟨c1, by simp [keysOf] at c2 ⊢; exact Or.inr c2, c3, g0,
              List.mem_cons_of_mem _ c4, c5⟩
          · intro k0 g0 hm hc hnm
            rcases List.mem_cons.mp hm with he | ht
            · injection he with he1 he2
              subst he1
              subst he2
              exact hpg
            · exact hskip k0 g0 ht hc hnm
        | false =>
          have h1 : (fillMissing pf dataKeys rest σ).map
              (fun p => ((k, w) :: p.1, p.2)) = some (fills, σ2) := by
            rw [show (match (some (w, σ) : Option (MValue × Nat)) with
                | some (w, σ') =>
                  if w.isNull then fillMissing pf dataKeys rest σ'
                  else (fillMissing pf dataKeys rest σ').map
                    (fun p => ((k, w) :: p.1, p.2))
                | none => none)
                = if w.isNull then fillMissing pf dataKeys rest σ
                  else (fillMissing pf dataKeys rest σ).map
                    (fun p => ((k, w) :: p.1, p.2)) from rfl,
              if_neg (by simp only [hwn]; exact Bool.false_ne_true)] at h0
            exact h0
          cases hrest : fillMissing pf dataKeys rest σ with
          | none => rw [hrest] at h1; simp at h1
          | some q =>
            obtain ⟨tf, σ''⟩ := q
            rw [hrest] at h1
            have h3 : (some ((k, w) :: tf, σ'') : Option _) = some (fills, σ2) := h1
            injection h3 with h3
            have hl : (k, w) :: tf = fills := congrArg Prod.fst h3
            have hσ3 : σ'' = σ2 := congrArg Prod.snd h3
            subst hl
            obtain ⟨hσ, hfill, hskip⟩ := ih σ tf σ'' hHPrest hrest
            refine ⟨hσ3.symm.trans hσ, ?_, ?_⟩
            · intro k0 w0 hm
              rcases List.mem_cons.mp hm with he | ht
              · injection he with he1 he2
                subst he1
                subst he2
                exact ⟨hdk, by simp [keysOf], hwn, g, List.mem_cons_self _ _, hpg⟩
              · obtain ⟨c1, c2, c3, g0, c4, c5⟩ := hfill k0 w0 ht
                exact ⟨c1, by simp [keysOf] at c2 ⊢; exact Or.inr c2, c3, g0,
                  List.mem_cons_of_mem _ c4, c5⟩
            · intro k0 g0 hm hc hnm
              have hk0 : k0 ≠ k := by
                intro he
                subst he
                exact hnm (by simp [keysOf])
              have hnm2 : ¬ k0 ∈ keysOf tf := by
                intro hm2
                exact hnm (by simp [keysOf] at hm2 ⊢; exact Or.inr hm2)
              rcases List.mem_cons.mp hm with he | ht
              · injection he with he1 he2
                exact absurd he1 hk0
              · exact hskip k0 g0 ht hc hnm2

theorem fillMissing_stable (pf : Field → MValue → Nat → Option (MValue × Nat))
    (dataKeys : List String) :
    ∀ (props1 : List (String × Field)) (σ : Nat),
      (∀ k g, (k, g) ∈ props1 → dataKeys.contains k = false →
        pf g .null σ = some (.null, σ)) →
      fillMissing pf dataKeys props1 σ = some ([], σ) := by
  intro props1
  induction props1 with
  | nil => intro σ _; rfl
  | cons e rest ih =>
    obtain ⟨k, g⟩ := e
    intro σ h
    have hrest := ih σ (fun k0 g0 hm hc => h k0 g0 (List.mem_cons_of_mem _ hm) hc)
    show (if dataKeys.contains k then fillMissing pf dataKeys rest σ
          else
            match pf g .null σ with
            | some (w, σ') =>
              if w.isNull then fillMissing pf dataKeys rest σ'
              else (fillMissing pf dataKeys rest σ').map (fun p => ((k, w) :: p.1, p.2))
            | none => none) = some ([], σ)
    cases hdk : dataKeys.contains k with
    | true =>
      show fillMissing pf dataKeys rest σ = some ([], σ)
      exact hrest
    | false =>
      rw [h k g (List.mem_cons_self _ _) hdk]
      show fillMissing pf dataKeys rest σ = some ([], σ)
      exact hrest

theorem parseAdditional_spec (pa : MValue → Nat → Option (MValue × Nat))
    (propKeys : List String) (hpa : StableFun pa) :
    ∀ (l : List (String × MValue)) (σ : Nat) (l3 : List (String × MValue)) (σ3 : Nat),
      parseAdditional pa propKeys l σ = some (l3, σ3) →
      σ3 = σ ∧ keysOf l3 = keysOf l ∧
      (∀ k w, (k, w) ∈ l3 → propKeys.contains k = false → pa w σ = some (w, σ)) ∧
      (∀ k w, (k, w) ∈ l3 → propKeys.contains k = true → (k, w) ∈ l) := by
  intro l
  induction l with
  | nil =>
    intro σ l3 σ3 h
    have h2 : (some (([] : List (String × MValue)), σ) : Option _) = some (l3, σ3) := h
    injection h2 with h2
    have hl : ([] : List (String × MValue)) = l3 := congrArg Prod.fst h2
    have hσ : σ = σ3 := congrArg Prod.snd h2
    subst hl
    exact ⟨hσ.symm, rfl, by intro k w hw; simp at hw, by intro k w hw; simp at hw⟩
  | cons e rest ih =>
    obtain ⟨k, v⟩ := e
    intro σ l3 σ3 h
    have h0 : (if propKeys.contains k then
          (parseAdditional pa propKeys rest σ).map (fun p => ((k, v) :: p.1, p.2))
        else
          match pa v σ with
          | some (w, σ') => (parseAdditional pa propKeys rest σ').map
              (fun p => ((k, w) :: p.1, p.2))
          | none => none) = some (l3, σ3) := h
    cases hdk : propKeys.contains k with
    | true =>
      rw [if_pos hdk] at h0
      cases hrest : parseAdditional pa propKeys rest σ with
      | none => rw [hrest] at h0; simp at h0
      | some q =>
        obtain ⟨l2, σ''⟩ := q
        rw [hrest] at h0
        have h3 : (some ((k, v) :: l2, σ'') : Option _) = some (l3, σ3) := h0
        injection h3 with h3
        have hl : (k, v) :: l2 = l3 := congrArg Prod.fst h3
        have hσ3 : σ'' = σ3 := congrArg Prod.snd h3
        subst hl
        obtain ⟨hσ, hkeys, hadd, hkeep⟩ := ih σ l2 σ'' hrest
        refine ⟨hσ3.symm.trans hσ, ?_, ?_, ?_⟩
        · simp only [keysOf, List.map_cons]
          simp only [keysOf] at hkeys
          rw [hkeys]
        · intro k0 w0 hm hc
          rcases List.mem_cons.mp hm with he | ht
          · injection he with he1 he2
            subst he1
            rw [hdk] at hc
            exact absurd hc (by simp)
          · exact hadd k0 w0 ht hc
        · intro k0 w0 hm hc
          rcases List.mem_cons.mp hm with he | ht
          · exact he ▸ List.mem_cons_self _ _
          · exact List.mem_cons_of_mem _ (hkeep k0 w0 ht hc)
    | false =>
      rw [if_neg (by simp only [hdk]; exact Bool.false_ne_true)] at h0
      cases hpv : pa v σ with
      | none => rw [hpv] at h0; simp at h0
      | some p =>
        obtain ⟨w, σ'⟩ := p
        rw [hpv] at h0
        obtain ⟨hσ', hre⟩ := hpa v σ w σ' hpv
        rw [hσ'] at h0
        have h4 : (parseAdditional pa propKeys rest σ).map
            (fun p => ((k, w) :: p.1, p.2)) = some (l3, σ3) := h0
        cases hrest : parseAdditional pa propKeys rest σ with
        | none => rw [hrest] at h4; simp at h4
        | some q =>
          obtain ⟨l2, σ''⟩ := q
          rw [hrest] at h4
          have h3 : (some ((k, w) :: l2, σ'') : Option _) = some (l3, σ3) := h4
          injection h3 with h3
          have hl : (k, w) :: l2 = l3 := congrArg Prod.fst h3
          have hσ3 : σ'' = σ3 := congrArg Prod.snd h3
          subst hl
          obtain ⟨hσ, hkeys, hadd, hkeep⟩ := ih σ l2 σ'' hrest
          refine ⟨hσ3.symm.trans hσ, ?_, ?_, ?_⟩
          · simp only [keysOf, List.map_cons]
            simp only [keysOf] at hkeys
            rw [hkeys]
          · intro k0 w0 hm hc
            rcases List.mem_cons.mp hm with he | ht
            · injection he with he1 he2
              subst he1
              subst he2
              exact hre
            · exact hadd k0 w0 ht hc
          · intro k0 w0 hm hc
            rcases List.mem_cons.mp hm with he | ht
            · injection he with he1 he2
              subst he1
              rw [hdk] at hc
              exact absurd hc (by simp)
            · exact List.mem_cons_of_mem _ (hkeep k0 w0 ht hc)

theorem parseAdditional_stable (pa : MValue → Nat → Option (MValue × Nat))
    (propKeys : List String) :
    ∀ (l : List (String × MValue)) (σ : Nat),
      (∀ k w, (k, w) ∈ l → propKeys.contains k = false → pa w σ = some (w, σ)) →
      parseAdditional pa propKeys l σ = some (l, σ) := by
  intro l
  induction l with
  | nil => intro σ _; rfl
  | cons e rest ih =>
    obtain ⟨k, v⟩ := e
    intro σ h
    have hrest := ih σ (fun k0 w0 hm hc => h k0 w0 (List.mem_cons_of_mem _ hm) hc)
    show (if propKeys.contains k then
          (parseAdditional pa propKeys rest σ).map (fun p => ((k, v) :: p.1, p.2))
        else
          match pa v σ with
          | some (w, σ') => (parseAdditional pa propKeys rest σ').map
              (fun p => ((k, w) :: p.1, p.2))
          | none => none) = some ((k, v) :: rest, σ)
    cases hdk : propKeys.contains k with
    | true =>
      show (parseAdditional pa propKeys rest σ).map (fun p => ((k, v) :: p.1, p.2))
          = some ((k, v) :: rest, σ)
      rw [hrest]
      rfl
    | false =>
      rw [h k v (List.mem_cons_self _ _) hdk]
      show (parseAdditional pa propKeys rest σ).map (fun p => ((k, v) :: p.1, p.2))
          = some ((k, v) :: rest, σ)
      rw [hrest]
      rfl

/-! ### Claim C7: idempotence of parsing with defaults -/

theorem bool_and_true {a b : Bool} (h : (a && b) = true) : a = true ∧ b = true := by
  revert h; cases a <;> cases b <;> decide

theorem keysOf_append {α : Type} (l1 l2 : List (String × α)) :
    keysOf (l1 ++ l2) = keysOf l1 ++ keysOf l2 :=
  List.map_append _ _ _

theorem contains_eq_false_iff (l : List String) (k : String) :
    l.contains k = false ↔ ¬ k ∈ l := by
  constructor
  · intro h hm
    rw [(contains_iff_mem l k).mpr hm] at h
    exact Bool.noConfusion h
  · intro h
    cases hc : l.contains k with
    | false => rfl
    | true => exact absurd ((contains_iff_mem l k).mp hc) h

theorem nodupKeys_append_single (l : List String) (k : String)
    (h : nodupKeys l = true) (hc : l.contains k = false) :
    nodupKeys (l ++ [k]) = true := by
  induction l with
  | nil => rfl
  | cons a t ih =>
    have h1 : (!t.contains a && nodupKeys t) = true := h
    obtain ⟨ha, ht⟩ := bool_and_true h1
    have ha' : t.contains a = false := by
      revert ha; cases t.contains a <;> simp
    have hka : ¬ k ∈ (a :: t) := (contains_eq_false_iff _ _).mp hc
    have hct : t.contains k = false :=
      (contains_eq_false_iff t k).mpr (fun m => hka (List.mem_cons_of_mem _ m))
    have hne : a ≠ k := fun e => hka (e ▸ List.mem_cons_self a t)
    show (!(t ++ [k]).contains a && nodupKeys (t ++ [k])) = true
    rw [ih ht hct]
    have hna : (t ++ [k]).contains a = false := by
      apply (contains_eq_false_iff _ _).mpr
      intro m
      rcases List.mem_append.mp m with m1 | m1
      · exact (contains_eq_false_iff t a).mp ha' m1
      · have he2 : a = k := by simpa using m1
        exact hne he2
    rw [hna]
    rfl

theorem mem_effectiveProps (props : Option (List (String × Field))) (root : Bool)
    (k : String) (g : Field) (hm : (k, g) ∈ effectiveProps props root) :
    (k, g) ∈ props.getD [] ∨ g = objectIDFieldDefault := by
  simp only [effectiveProps] at hm
  by_cases hc : (root && !(keysOf (props.getD [])).contains "_id") = true
  · rw [if_pos hc] at hm
    rcases List.mem_append.mp hm with h1 | h1
    · exact Or.inl h1
    · right
      have h2 : (k, g) = ("_id", objectIDFieldDefault) := by simpa using h1
      exact congrArg Prod.snd h2
  · rw [if_neg hc] at hm
    exact Or.inl hm

theorem nodup_effectiveProps (props : Option (List (String × Field))) (root : Bool)
    (h : nodupKeys (keysOf (props.getD [])) = true) :
    nodupKeys (keysOf (effectiveProps props root)) = true := by
  simp only [effectiveProps]
  by_cases hc : (root && !(keysOf (props.getD [])).contains "_id") = true
  · rw [if_pos hc, keysOf_append,
      show keysOf [("_id", objectIDFieldDefault)] = ["_id"] from rfl]
    obtain ⟨_, h2⟩ := bool_and_true hc
    have h3 : (keysOf (props.getD [])).contains "_id" = false := by
      revert h2; cases (keysOf (props.getD [])).contains "_id" <;> simp
    exact nodupKeys_append_single _ _ h h3
  · rw [if_neg hc]
    exact h

theorem stable_objectID (fuel : Nat) (wd root : Bool) :
    StableFun (fun v σ => parseF fuel objectIDFieldDefault v wd root σ) := by
  intro v σ r σ' h
  cases fuel with
  | zero => exact Option.noConfusion h
  | succ n =>
    exact parse_idem_plain n objectIDFieldDefault v wd root σ r σ' rfl rfl rfl h

theorem parseF_dict_eq (fuel : Nat) (t : Option String) (d : Option FieldDefault)
    (req : Bool) (a : List (String × Option MValue))
    (props : Option (List (String × Field))) (ap : APolicy)
    (rp : Option (List String)) (value : MValue) (wd root : Bool) (σ : Nat) :
    parseF (fuel + 1) (Field.mk t d req a (.dictF props ap rp)) value wd root σ =
      (if value.isNull && !wd then some (.null, σ)
       else
         match (if value.isNull then some [] else value.asDoc?) with
         | none => none
         | some data =>
           dictPipeline fuel (effectiveProps props root) ap wd data σ) := by
  rfl

theorem dictPipeline_idem (fuel : Nat) (props1 : List (String × Field))
    (ap : APolicy) (wd : Bool)
    (hnd : nodupKeys (keysOf props1) = true)
    (hSt : ∀ k g, (k, g) ∈ props1 →
      StableFun (fun v σ0 => parseF fuel g v wd false σ0))
    (hap : ∀ g, ap = .fieldP g →
      StableFun (fun v σ0 => parseF fuel g v wd false σ0))
    (data : List (String × MValue)) (σ : Nat) (r : MValue) (σ' : Nat)
    (hp : dictPipeline fuel props1 ap wd data σ = some (r, σ')) :
    σ' = σ ∧ ∃ out, r = .doc out ∧
      dictPipeline fuel props1 ap wd out σ = some (.doc out, σ) := by
  have hHP : ∀ k g, lookupF k props1 = some g →
      StableFun ((fun g v σ0 => parseF fuel g v wd false σ0) g) :=
    fun k g hg => hSt k g (mem_keysOf_of_lookupF props1 k g hg).1
  unfold dictPipeline at hp
  cases hpe : parseEntries (fun g v σ0 => parseF fuel g v wd false σ0)
      props1 data σ with
  | none => rw [hpe] at hp; exact absurd hp (by simp)
  | some q =>
    obtain ⟨data1, σ1⟩ := q
    rw [hpe] at hp
    obtain ⟨hσ1, hkeys1, hpoint⟩ :=
      parseEntries_spec (fun g v σ0 => parseF fuel g v wd false σ0) props1 hHP
        data σ data1 σ1 hpe
    rw [hσ1] at hp
    have hp1 : (match (if wd then fillMissing
          (fun g v σ0 => parseF fuel g v wd false σ0) (keysOf data1) props1 σ
          else some ([], σ)) with
        | none => none
        | some (fills, σ2) => apStep fuel props1 ap wd (data1 ++ fills) σ2)
        = some (r, σ') := hp
    cases hfm : (if wd then fillMissing (fun g v σ0 => parseF fuel g v wd false σ0)
        (keysOf data1) props1 σ else some ([], σ)) with
    | none => rw [hfm] at hp1; exact absurd hp1 (by simp)
    | some qf =>
      obtain ⟨fills, σ2⟩ := qf
      rw [hfm] at hp1
      have hpA : apStep fuel props1 ap wd (data1 ++ fills) σ2 = some (r, σ') := hp1
      have hfacts : σ2 = σ ∧
          (∀ k w, (k, w) ∈ fills → w.isNull = false ∧
            ∃ g, (k, g) ∈ props1 ∧
              parseF fuel g .null wd false σ = some (w, σ)) ∧
          (∀ out : List (String × MValue),
            (∀ k, k ∈ keysOf props1 → k ∈ keysOf data1 ++ keysOf fills →
              k ∈ keysOf out) →
            (if wd then fillMissing (fun g v σ0 => parseF fuel g v wd false σ0)
              (keysOf out) props1 σ else some ([], σ)) = some ([], σ)) := by
        cases wd with
        | false =>
          have h0 : (some (([] : List (String × MValue)), σ) : Option _)
              = some (fills, σ2) := hfm
          injection h0 with h0
          have hf : ([] : List (String × MValue)) = fills := congrArg Prod.fst h0
          have hσ : σ = σ2 := congrArg Prod.snd h0
          refine ⟨hσ.symm, ?_, ?_⟩
          · intro k w hw; rw [← hf] at hw; simp at hw
          · intro out _; rfl
        | true =>
          have h0 : fillMissing (fun g v σ0 => parseF fuel g v true false σ0)
              (keysOf data1) props1 σ = some (fills, σ2) := hfm
          obtain ⟨hσ2, hfill, hskip⟩ :=
            fillMissing_spec (fun g v σ0 => parseF fuel g v true false σ0)
              (keysOf data1) props1 σ fills σ2 hSt h0
          refine ⟨hσ2, ?_, ?_⟩
          · intro k w hw
            obtain ⟨c1, c2, c3, g, c4, c5⟩ := hfill k w hw
            exact ⟨c3, g, c4, c5⟩
          · intro out hout
            show fillMissing (fun g v σ0 => parseF fuel g v true false σ0)
              (keysOf out) props1 σ = some ([], σ)
            apply fillMissing_stable
            intro k g hm hc
            have hkp : k ∈ keysOf props1 := by
              simp only [keysOf, List.mem_map]
              exact ⟨(k, g), hm, rfl⟩
            have hnotout : ¬ k ∈ keysOf out := (contains_eq_false_iff _ _).mp hc
            have hnotd2 : ¬ k ∈ keysOf data1 ++ keysOf fills :=
              fun hmem => hnotout (hout k hkp hmem)
            have hnd1 : (keysOf data1).contains k = false :=
              (contains_eq_false_iff _ _).mpr
                (fun m => hnotd2 (List.mem_append_left _ m))
            have hnf : ¬ k ∈ keysOf fills :=
              fun m => hnotd2 (List.mem_append_right _ m)
            exact hskip k g hm hnd1 hnf
      obtain ⟨hσ2, hfillchar, hrefill⟩ := hfacts
      rw [hσ2] at hpA
      have hpoint2 : ∀ k w, (k, w) ∈ data1 ++ fills → ∀ g,
          lookupF k props1 = some g →
          parseF fuel g w wd false σ = some (w, σ) := by
        intro k w hm g hg
        rcases List.mem_append.mp hm with h1 | h1
        · exact hpoint k w h1 g hg
        · obtain ⟨hwn, g0, hg0m, hg0p⟩ := hfillchar k w h1
          have hgl : lookupF k props1 = some g0 :=
            lookupF_of_mem_nodup props1 k g0 hnd hg0m
          rw [hgl] at hg
          injection hg with hge
          subst hge
          exact (hSt k g0 hg0m MValue.null σ w σ hg0p).2
      have hre_entries : ∀ (out : List (String × MValue)),
          (∀ k w, (k, w) ∈ out → k ∈ keysOf props1 → (k, w) ∈ data1 ++ fills) →
          parseEntries (fun g v σ0 => parseF fuel g v wd false σ0) props1 out σ
            = some (out, σ) := by
        intro out hsub
        apply parseEntries_stable
        intro k w hm g hg
        exact hpoint2 k w (hsub k w hm (mem_keysOf_of_lookupF props1 k g hg).2) g hg
      cases ap with
      | boolP b =>
        cases b with
        | true =>
          have hp2 : (some (MValue.doc (data1 ++ fills), σ) : Option (MValue × Nat))
              = some (r, σ') := hpA
          injection hp2 with hp2
          have hr : MValue.doc (data1 ++ fills) = r := congrArg Prod.fst hp2
          have hσ' : σ = σ' := congrArg Prod.snd hp2
          refine ⟨hσ'.symm, data1 ++ fills, hr.symm, ?_⟩
          unfold dictPipeline
          rw [hre_entries (data1 ++ fills) (fun k w hm _ => hm)]
          show (match (if wd then fillMissing
                (fun g v σ0 => parseF fuel g v wd false σ0)
                (keysOf (data1 ++ fills)) props1 σ else some ([], σ)) with
              | none => none
              | some (fills2, σ2) =>
                apStep fuel props1 (.boolP true) wd ((data1 ++ fills) ++ fills2) σ2)
              = some (.doc (data1 ++ fills), σ)
          rw [hrefill (data1 ++ fills)
            (fun k hk hm2 => by rw [keysOf_append]; exact hm2)]
          show some (MValue.doc ((data1 ++ fills) ++ []), σ)
              = some (MValue.doc (data1 ++ fills), σ)
          rw [List.append_nil]
        | false =>
          have hp2 : (some (MValue.doc ((data1 ++ fills).filter
                (fun p => (keysOf props1).contains p.1)), σ) : Option (MValue × Nat))
              = some (r, σ') := hpA
          injection hp2 with hp2
          have hr := congrArg Prod.fst hp2
          have hσ' := congrArg Prod.snd hp2
          refine ⟨hσ'.symm,
            (data1 ++ fills).filter (fun p => (keysOf props1).contains p.1),
            hr.symm, ?_⟩
          have hsub : ∀ k w, (k, w) ∈ (data1 ++ fills).filter
              (fun p => (keysOf props1).contains p.1) → k ∈ keysOf props1 →
              (k, w) ∈ data1 ++ fills :=
            fun k w hm _ => (List.mem_filter.mp hm).1
          have harg : ∀ k, k ∈ keysOf props1 →
              k ∈ keysOf data1 ++ keysOf fills →
              k ∈ keysOf ((data1 ++ fills).filter
                (fun p => (keysOf props1).contains p.1)) := by
            intro k hk hm2
            rw [← keysOf_append] at hm2
            simp only [keysOf, List.mem_map] at hm2 ⊢
            obtain ⟨p, hpmem, hpk⟩ := hm2
            refine ⟨p, List.mem_filter.mpr ⟨hpmem, ?_⟩, hpk⟩
            rw [show p.1 = k from hpk]
            exact (contains_iff_mem _ _).mpr hk
          unfold dictPipeline
          rw [hre_entries _ hsub]
          show (match (if wd then fillMissing
                (fun g v σ0 => parseF fuel g v wd false σ0)
                (keysOf ((data1 ++ fills).filter
                  (fun p => (keysOf props1).contains p.1))) props1 σ
                else some ([], σ)) with
              | none => none
              | some (fills2, σ2) =>
                apStep fuel props1 (.boolP false) wd
                  (((data1 ++ fills).filter
                    (fun p => (keysOf props1).contains p.1)) ++ fills2) σ2)
              = some (.doc ((data1 ++ fills).filter
                  (fun p => (keysOf props1).contains p.1)), σ)
          rw [hrefill _ harg]
          have hfin : ((((data1 ++ fills).filter
              (fun (p : String × MValue) => (keysOf props1).contains p.1)) ++ []).filter
              (fun (p : String × MValue) => (keysOf props1).contains p.1))
              = (data1 ++ fills).filter
                (fun (p : String × MValue) => (keysOf props1).contains p.1) := by
            rw [List.append_nil]
            exact List.filter_eq_self.mpr (fun a ha => (List.mem_filter.mp ha).2)
          exact congrArg (fun l => (some (MValue.doc l, σ) : Option (MValue × Nat))) hfin
      | fieldP g =>
        have hp2 : (match parseAdditional (fun v σ0 => parseF fuel g v wd false σ0)
              (keysOf props1) (data1 ++ fills) σ with
            | none => none
            | some (data3, σ3) => some (MValue.doc data3, σ3)) = some (r, σ') := hpA
        cases hpa : parseAdditional (fun v σ0 => parseF fuel g v wd false σ0)
            (keysOf props1) (data1 ++ fills) σ with
        | none => rw [hpa] at hp2; exact absurd hp2 (by simp)
        | some q3 =>
          obtain ⟨data3, σ3⟩ := q3
          rw [hpa] at hp2
          have hp3 : (some (MValue.doc data3, σ3) : Option (MValue × Nat))
              = some (r, σ') := hp2
          injection hp3 with hp3
          have hr := congrArg Prod.fst hp3
          have hσ3' : σ3 = σ' := congrArg Prod.snd hp3
          obtain ⟨hσ3, hkeys3, hadd, hkeep⟩ :=
            parseAdditional_spec (fun v σ0 => parseF fuel g v wd false σ0)
              (keysOf props1) (hap g rfl) (data1 ++ fills) σ data3 σ3 hpa
          refine ⟨hσ3'.symm.trans hσ3, data3, hr.symm, ?_⟩
          have harg : ∀ k, k ∈ keysOf props1 →
              k ∈ keysOf data1 ++ keysOf fills → k ∈ keysOf data3 := by
            intro k hk hm2
            rw [← keysOf_append] at hm2
            rw [← hkeys3] at hm2
            exact hm2
          unfold dictPipeline
          rw [hre_entries data3 (fun k w hm hk =>
            hkeep k w hm ((contains_iff_mem _ _).mpr hk))]
          show (match (if wd then fillMissing
                (fun g v σ0 => parseF fuel g v wd false σ0)
                (keysOf data3) props1 σ else some ([], σ)) with
              | none => none
              | some (fills2, σ2) =>
                apStep fuel props1 (.fieldP g) wd (data3 ++ fills2) σ2)
              = some (.doc data3, σ)
          rw [hrefill data3 harg]
          show (match parseAdditional (fun v σ0 => parseF fuel g v wd false σ0)
                (keysOf props1) (data3 ++ []) σ with
              | none => none
              | some (d4, σ4) => some (MValue.doc d4, σ4))
              = some (.doc data3, σ)
          rw [List.append_nil,
            parseAdditional_stable (fun v σ0 => parseF fuel g v wd false σ0)
              (keysOf props1) data3 σ hadd]

theorem parse_idem : ∀ (n : Nat) (f : Field) (v : MValue) (wd root : Bool)
    (σ : Nat) (r : MValue) (σ' : Nat),
    idemOkF n f = true →
    parseF n f v wd root σ = some (r, σ') →
    σ' = σ ∧ parseF n f r wd root σ = some (r, σ) := by
  intro n
  induction n with
  | zero =>
    intro f v wd root σ r σ' hok hp
    exact absurd hok (by simp [idemOkF])
  | succ fuel ih =>
    intro f v wd root σ r σ' hok hp
    obtain ⟨t, d, req, a, s⟩ := f
    cases s with
    | plain k =>
      have h2 : (defaultFixed (Field.mk t d req a (.plain k)) && idemKindOk k)
          = true := hok
      obtain ⟨hdef, hkind⟩ := bool_and_true h2
      exact parse_idem_plain fuel _ v wd root σ r σ' rfl hkind hdef hp
    | listF g? =>
      have h2 : (defaultFixed (Field.mk t d req a (.listF g?)) && true) = true := hok
      obtain ⟨hdef, _⟩ := bool_and_true h2
      exact parse_idem_plain fuel _ v wd root σ r σ' rfl rfl hdef hp
    | withFields n2 b fs =>
      have h2 : (defaultFixed (Field.mk t d req a (.withFields n2 b fs)) && true)
          = true := hok
      obtain ⟨hdef, _⟩ := bool_and_true h2
      exact parse_idem_plain fuel _ v wd root σ r σ' rfl rfl hdef hp
    | notF g2 =>
      have h2 : (defaultFixed (Field.mk t d req a (.notF g2)) && true) = true := hok
      obtain ⟨hdef, _⟩ := bool_and_true h2
      exact parse_idem_plain fuel _ v wd root σ r σ' rfl rfl hdef hp
    | dictF props ap rp =>
      have h2 : (defaultFixed (Field.mk t d req a (.dictF props ap rp)) &&
          (nodupKeys (keysOf (props.getD [])) &&
           (props.getD []).all (fun p => idemOkF fuel p.2) &&
           apIdemOk fuel ap)) = true := hok
      obtain ⟨hdef, h3⟩ := bool_and_true h2
      obtain ⟨h4, hapOk⟩ := bool_and_true h3
      obtain ⟨hnd0, hall⟩ := bool_and_true h4
      have hnd : nodupKeys (keysOf (effectiveProps props root)) = true :=
        nodup_effectiveProps props root hnd0
      have hSt : ∀ k g, (k, g) ∈ effectiveProps props root →
          StableFun (fun v0 σ0 => parseF fuel g v0 wd false σ0) := by
        intro k g hm
        rcases mem_effectiveProps props root k g hm with hdecl | hoid
        · have hok2 : idemOkF fuel g = true := List.all_eq_true.mp hall (k, g) hdecl
          intro v0 σ0 r0 σ0' h0
          exact ih g v0 wd false σ0 r0 σ0' hok2 h0
        · rw [hoid]
          exact stable_objectID fuel wd false
      have hap2 : ∀ g, ap = .fieldP g →
          StableFun (fun v0 σ0 => parseF fuel g v0 wd false σ0) := by
        intro g he
        subst he
        have hok2 : idemOkF fuel g = true := hapOk
        intro v0 σ0 r0 σ0' h0
        exact ih g v0 wd false σ0 r0 σ0' hok2 h0
      rw [parseF_dict_eq] at hp
      cases hvn : v.isNull with
      | true =>
        have hveq : v = .null := (MValue.isNull_iff v).mp hvn
        subst hveq
        cases wd with
        | false =>
          have hp2 : (some (MValue.null, σ) : Option (MValue × Nat))
              = some (r, σ') := hp
          injection hp2 with hp2
          have hr : MValue.null = r := congrArg Prod.fst hp2
          have hσ' : σ = σ' := congrArg Prod.snd hp2
          refine ⟨hσ'.symm, ?_⟩
          rw [← hr]
          rfl
        | true =>
          have hp2 : dictPipeline fuel (effectiveProps props root) ap true [] σ
              = some (r, σ') := hp
          obtain ⟨hσ', out, hr, hre⟩ :=
            dictPipeline_idem fuel (effectiveProps props root) ap true hnd hSt hap2
              [] σ r σ' hp2
          subst hr
          refine ⟨hσ', ?_⟩
          rw [parseF_dict_eq]
          show dictPipeline fuel (effectiveProps props root) ap true out σ
              = some (.doc out, σ)
          exact hre
      | false =>
        have hp2 : (match v.asDoc? with
            | none => none
            | some data =>
              dictPipeline fuel (effectiveProps props root) ap wd data σ)
            = some (r, σ') := by
          rw [hvn] at hp
          exact hp
        cases hdoc : v.asDoc? with
        | none => rw [hdoc] at hp2; exact absurd hp2 (by simp)
        | some data =>
          rw [hdoc] at hp2
          obtain ⟨hσ', out, hr, hre⟩ :=
            dictPipeline_idem fuel (effectiveProps props root) ap wd hnd hSt hap2
              data σ r σ' hp2
          subst hr
          refine ⟨hσ', ?_⟩
          rw [parseF_dict_eq]
          show dictPipeline fuel (effectiveProps props root) ap wd out σ
              = some (.doc out, σ)
          exact hre

/-- Claim C7 (amended): parsing with defaults is idempotent provided — beyond
the claim's no-factory-defaults hypothesis — every static default is `None` or
a fixed point of its field's coercion, no numeric coercion kinds occur, and
the declared property keys are duplicate-free (`idemOkF`): a successful
root parse with defaults leaves the fresh-call counter unchanged and
re-parsing its result reproduces it exactly. -/
theorem C7_amended (n : Nat) (f : Field) (v r : MValue) (σ σ' : Nat)
    (hok : idemOkF n f = true)
    (hp : parseF n f v true true σ = some (r, σ')) :
    σ' = σ ∧ parseF n f r true true σ = some (r, σ) :=
  parse_idem n f v true true σ r σ' hok hp

/-- Claim C7 witness: the schema `{tag: StringField(default="x")}` satisfies
`idemOkF`, parsing `{}` with defaults yields `{tag: "x"}`, and re-parsing that
result reproduces it. -/
theorem C7_amended_witness :
    idemOkF 3 c7okSchema = true ∧
    parseF 3 c7okSchema (.doc []) true true 0
      = some (.doc [("tag", .str "x")], 0) ∧
    (0 = 0 ∧ parseF 3 c7okSchema (.doc [("tag", .str "x")]) true true 0
      = some (.doc [("tag", .str "x")], 0)) :=
  ⟨rfl, rfl, C7_amended 3 c7okSchema (.doc []) (.doc [("tag", .str "x")]) 0 0 rfl rfl⟩

/-- Claim C7 counterexample: the schema `{name: StringField(default=5)}` has no
factory (callable) default, yet parsing with defaults is not idempotent — the
first parse of `{}` fills `name` with the declared `5` verbatim, and the second
parse coerces it to the string `"5"`. -/
theorem C7_counterexample :
    noFactories 2 c7schema = true ∧
    parseF 3 c7schema (.doc []) true true 0
      = some (.doc [("name", .int 5)], 0) ∧
    parseF 3 c7schema (.doc [("name", .int 5)]) true true 0
      = some (.doc [("name", .str "5")], 0) ∧
    MValue.doc [("name", .int 5)] ≠ MValue.doc [("name", .str "5")] :=
  ⟨rfl, rfl, rfl, by simp⟩


end Pymongoext
